import Mathlib

/-!
Verification development for the wt_blk repository (VROMF/BLK decoder).

The Rust sources are shallowly embedded: byte buffers become `List Nat`,
Rust strings become their UTF-8 byte lists (`Bytes`), machine integers
become `Nat`/`Int`, `f32` values are carried abstractly as `Rat` (no float
arithmetic is ever performed by the modelled code paths; floats are only
moved around and emitted), fallible Rust code returns `Except`, and Rust
panics are modelled by the dedicated `ROut.crash` outcome so that error
results and process aborts stay distinguishable.

Functions of the repository that live in modules not present under `src/`
(`blk/file.rs`, `blk/zstd.rs`, `binary/leb128.rs`, the vromf enum/util
helpers) are either modelled from the specification (marked by a doc
comment starting with `Modelled from the spec:`) or passed in as explicit
function parameters ("oracles"), so every theorem quantifies over all
possible behaviours of the missing code.
-/

set_option autoImplicit false

namespace WtBlk

/-- Byte strings: the UTF-8 bytes of a Rust `String` / `Arc<str>` / `&[u8]`. -/
abbrev Bytes := List Nat

/-- Convert a Lean string literal to its byte list (ASCII in all our uses). -/
def strB (s : String) : Bytes := s.data.map Char.toNat

/-- Fuel-driven worker for `replaceAll`; fuel `l.length` always suffices
since each step consumes at least one element of `l`. -/
def replaceAllGo (pat rep : Bytes) : Nat → Bytes → Bytes
  | 0, l => l
  | _ + 1, [] => []
  | fuel + 1, a :: t =>
    if pat.isPrefixOf (a :: t) && !pat.isEmpty
    then rep ++ replaceAllGo pat rep fuel ((a :: t).drop pat.length)
    else a :: replaceAllGo pat rep fuel t

/-- Rust `str::replace`: replace every non-overlapping occurrence of `pat`
by `rep`, scanning left to right. -/
def replaceAll (pat rep l : Bytes) : Bytes := replaceAllGo pat rep l.length l

/-- The override marker `"override:"` (see `BlkField::apply_overrides`). -/
def ovPrefix : Bytes := strB "override:"

/-- The BLK value variants (`blk/blk_type.rs` is referenced by the sources
under `src/` but the file itself is absent; the variants and payloads are
taken from the match arms in `plaintext_serialize/json.rs` and from the
data-model table of the spec, §3).  Fixed-size Rust arrays become lists. -/
inductive BlkType where
  | Str (s : Bytes)
  | Int (i : Int)
  | Int2 (l : List Int)
  | Int3 (l : List Int)
  | Long (i : Int)
  | Float (x : Rat)
  | Float2 (l : List Rat)
  | Float3 (l : List Rat)
  | Float4 (l : List Rat)
  | Float12 (l : List Rat)
  | Bool (b : Bool)
  | Color (r g b a : Nat)

/-- The BLK tree (`blk/blk_structure.rs`): `Value`, `Struct` with ordered
children, and the emitter-synthesised `Merged`. -/
inductive BlkField where
  | Value (name : Bytes) (value : BlkType)
  | Struct (name : Bytes) (fields : List BlkField)
  | Merged (name : Bytes) (fields : List BlkField)

/-- `BlkField::get_name`. -/
def BlkField.getName : BlkField → Bytes
  | .Value n _ => n
  | .Struct n _ => n
  | .Merged n _ => n

/-- `BlkField::set_name`. -/
def BlkField.setName (new : Bytes) : BlkField → BlkField
  | .Value _ v => .Value new v
  | .Struct _ fs => .Struct new fs
  | .Merged _ fs => .Merged new fs

/-- `BlkField::insert_field`: push onto a `Struct`, fail otherwise.  The
Rust method mutates; we return the updated node. -/
def BlkField.insertField (self field : BlkField) : Option BlkField :=
  match self with
  | .Struct n fs => some (.Struct n (fs ++ [field]))
  | _ => none

/-! ### The `IndexMap` used by `apply_overrides`

`apply_overrides` builds an `indexmap::IndexMap` from the non-override
children.  We model it as an association list: `insert` overwrites the
value of an existing key in place (keeping its position) and otherwise
appends, exactly `IndexMap::insert`'s documented behaviour, which is what
`IndexMap::from_iter` repeats. -/

abbrev IM := List (Bytes × BlkField)

/-- `IndexMap::insert` (as iterated by `from_iter`). -/
def imInsert : IM → Bytes × BlkField → IM
  | [], p => [p]
  | q :: t, p => if q.1 = p.1 then (q.1, p.2) :: t else q :: imInsert t p

/-- `IndexMap::contains_key` (the `get_mut(..).is_some()` test). -/
def imContains : IM → Bytes → Bool
  | [], _ => false
  | q :: t, k => if q.1 = k then true else imContains t k

/-- Write through `IndexMap::get_mut`: replace the value stored at `k`
(no-op when `k` is absent). -/
def imUpdate : IM → Bytes → BlkField → IM
  | [], _, _ => []
  | q :: t, k, v => if q.1 = k then (q.1, v) :: t else q :: imUpdate t k v

/-- Keys of the association list, in order. -/
def imKeys (m : IM) : List Bytes := m.map (fun p => p.1)

/-- First-match lookup. -/
def imLookup : IM → Bytes → Option BlkField
  | [], _ => none
  | q :: t, k => if q.1 = k then some q.2 else imLookup t k

/-- The key/value pair `(e.get_name(), e)` formed by `apply_overrides`. -/
def pairWithName (e : BlkField) : Bytes × BlkField := (e.getName, e)

/-- One override application: `key.replace("override:", "")`, then — if
the map holds that key — rename the override and store it there. -/
def ovStep (m : IM) (p : Bytes × BlkField) : IM :=
  let replaced := replaceAll ovPrefix [] p.1
  if imContains m replaced then imUpdate m replaced (p.2.setName replaced) else m

/-- The body of `BlkField::apply_overrides` for one `Struct`'s (already
recursed) child list: partition into overrides and plain entries, build
the `IndexMap` from the plain entries, then let each override (in order)
replace the entry whose key is the override's name with all `"override:"`
occurrences removed, and return the map's values in index order. -/
def applyOverridesList (values : List BlkField) : List BlkField :=
  let with_name :=
    (values.map pairWithName).partition (fun p => ovPrefix.isPrefixOf p.1)
  let map0 : IM := with_name.2.foldl imInsert []
  let map1 : IM := with_name.1.foldl ovStep map0
  map1.map (fun e => e.2)

mutual

/-- `BlkField::apply_overrides` (`blk/blk_structure.rs`): recurse into the
children of a `Struct` first, then run the override pass on the result;
`Value` and `Merged` nodes are left untouched (the Rust `match` only
handles `Struct`). -/
def BlkField.applyOverrides : BlkField → BlkField
  | .Value n v => .Value n v
  | .Merged n cs => .Merged n cs
  | .Struct n cs => .Struct n (applyOverridesList (applyOverridesMap cs))

/-- `moved_values.iter_mut().for_each(|v| v.apply_overrides())`. -/
def applyOverridesMap : List BlkField → List BlkField
  | [] => []
  | c :: t => c.applyOverrides :: applyOverridesMap t

end

/-! ### Specification-level restatement of the override pass -/

/-- Append `n` unless already present. -/
def dedupStep (acc : List Bytes) (n : Bytes) : List Bytes :=
  if n ∈ acc then acc else acc ++ [n]

/-- Deduplicate, keeping the first occurrence of each element. -/
def dedupFirst (l : List Bytes) : List Bytes := l.foldl dedupStep []

/-- The last entry of `l` carrying name `k`. -/
def lastWithName (k : Bytes) (l : List BlkField) : Option BlkField :=
  (l.filter (fun e => e.getName = k)).getLast?

/-- The sibling name an override entry targets: its own name with every
occurrence of `"override:"` removed (Rust `key.replace("override:", "")`). -/
def overrideTarget (s : Bytes) : Bytes := replaceAll ovPrefix [] s

/-- Placeholder used for an impossible lookup miss (never reachable when
the key list is built from the entries themselves). -/
def specPassDefault (k : Bytes) : BlkField := .Value k (.Int 0)

/-- The entry the override pass leaves behind for the name `k`. -/
def specEntry (ovs keeps : List BlkField) (k : Bytes) : BlkField :=
  match (ovs.filter (fun o => overrideTarget o.getName = k)).getLast? with
  | some o => o.setName k
  | none => (lastWithName k keeps).getD (specPassDefault k)

/-- Declarative restatement of the override pass, following the spec's
wording: walk the distinct non-override names in order of first
occurrence; a name targeted by some override yields the last such
override renamed to that name, otherwise the last sibling of that name. -/
def specApplyOverridesList (l : List BlkField) : List BlkField :=
  let keeps := l.filter (fun e => !(ovPrefix.isPrefixOf e.getName))
  let ovs := l.filter (fun e => ovPrefix.isPrefixOf e.getName)
  (dedupFirst (keeps.map BlkField.getName)).map (specEntry ovs keeps)

mutual

/-- Declarative companion of `apply_overrides` (same recursion scheme,
spec-level pass). -/
def specApplyOverrides : BlkField → BlkField
  | .Value n v => .Value n v
  | .Merged n cs => .Merged n cs
  | .Struct n cs => .Struct n (specApplyOverridesList (specApplyOverridesMap cs))

/-- Pointwise recursion of `specApplyOverrides` over a child list. -/
def specApplyOverridesMap : List BlkField → List BlkField
  | [] => []
  | c :: t => specApplyOverrides c :: specApplyOverridesMap t

end

/-! ### `merge_fields` (`blk/plaintext_serialize/json.rs`) -/

/-- Record index `i` in the bucket of key `k`: mirrors the
`maybe_merge.get_mut(..) / insert(..)` pair of `merge_fields`.  The Rust
code uses a `HashMap` whose iteration order is unspecified; we keep the
buckets in key-insertion order.  (The merge loop below acts on disjoint
index sets, one per key, so the resulting field list does not depend on
the bucket order.) -/
def addIdx : List (Bytes × List Nat) → Bytes → Nat → List (Bytes × List Nat)
  | [], k, i => [(k, [i])]
  | g :: t, k, i => if g.1 = k then (g.1, g.2 ++ [i]) :: t else g :: addIdx t k i

/-- First pass of `merge_fields`: bucket the indices of each field name. -/
def collectGroups (fields : List BlkField) : List (Bytes × List Nat) :=
  fields.enum.foldl (fun m p => addIdx m p.2.getName p.1) []

/-- Stand-in for the value behind `old[e].take().expect("Infallible")`
when the slot is empty — unreachable, because distinct buckets hold
disjoint index sets. -/
def dummyField : BlkField := .Value [] (.Int 0)

/-- One `old[e].take()`: append the taken value and clear the slot. -/
def takeStep (st : List (Option BlkField) × List BlkField) (e : Nat) :
    List (Option BlkField) × List BlkField :=
  (st.1.set e none, st.2 ++ [((st.1.get? e).join).getD dummyField])

/-- Process one duplicate bucket: `take` every member out of the working
vector (collecting them in order) and drop a `Merged` node into the slot
of the first occurrence. -/
def mergeGroupStep (old : List (Option BlkField)) (g : Bytes × List Nat) :
    List (Option BlkField) :=
  let acc := g.2.foldl takeStep (old, [])
  acc.1.set (g.2.headD 0) (some (.Merged g.1 acc.2))

/-- The body of `merge_fields` for one (already recursed) child list. -/
def mergePass (fields : List BlkField) : List BlkField :=
  let old : List (Option BlkField) := fields.map some
  let groups := (collectGroups fields).filter (fun e => 1 < e.2.length)
  (groups.foldl mergeGroupStep old).filterMap id

mutual

/-- `BlkField::merge_fields`: recurse into a `Struct`'s children first,
then collapse duplicate-named siblings; other variants are untouched. -/
def BlkField.mergeFields : BlkField → BlkField
  | .Value n v => .Value n v
  | .Merged n cs => .Merged n cs
  | .Struct n cs => .Struct n (mergePass (mergeFieldsMap cs))

/-- `for field in fields.iter_mut() { field.merge_fields(); }`. -/
def mergeFieldsMap : List BlkField → List BlkField
  | [] => []
  | c :: t => c.mergeFields :: mergeFieldsMap t

end

/-! ### Specification-level restatement of the merge pass -/

/-- Indices (in order) of the entries named `k`. -/
def idxsOf (fields : List BlkField) (k : Bytes) : List Nat :=
  (fields.enum.filter (fun p => p.2.getName = k)).map (fun p => p.1)

/-- The entries named `k`, in order. -/
def grpOf (fields : List BlkField) (k : Bytes) : List BlkField :=
  fields.filter (fun e => e.getName = k)

/-- What the merge pass leaves at position `p.1` (holding `p.2`): keep a
unique name; put the `Merged` group at the first occurrence of a
duplicated name; drop the later occurrences. -/
def specMergeFn (fields : List BlkField) (p : Nat × BlkField) : Option BlkField :=
  if (grpOf fields p.2.getName).length ≤ 1 then some p.2
  else if (idxsOf fields p.2.getName).headD 0 = p.1 then
    some (.Merged p.2.getName (grpOf fields p.2.getName))
  else none

/-- Declarative merge pass, following the spec's wording: a name occurring
at least twice is collapsed into a single `Merged` node holding the group
in original order, placed at the first occurrence; unique names stay. -/
def specMergePass (fields : List BlkField) : List BlkField :=
  fields.enum.filterMap (specMergeFn fields)

/-- The slot contents after the buckets of the names in `ks` have been
merged: positions of unprocessed names still hold their original field. -/
def partialMergeFn (fields : List BlkField) (ks : List Bytes) (p : Nat × BlkField) :
    Option BlkField :=
  if p.2.getName ∈ ks then specMergeFn fields p else some p.2

/-- First-match bucket lookup in the `collectGroups` association list. -/
def gLookup : List (Bytes × List Nat) → Bytes → Option (List Nat)
  | [], _ => none
  | g :: t, k => if g.1 = k then some g.2 else gLookup t k

/-- Keys of the bucket list, in order. -/
def gKeys (m : List (Bytes × List Nat)) : List Bytes := m.map (fun p => p.1)

/-- Indices (counted from `n`) of the entries named `k`. -/
def idxsFrom (n : Nat) (l : List BlkField) (k : Bytes) : List Nat :=
  ((l.enumFrom n).filter (fun p => p.2.getName = k)).map (fun p => p.1)

/-- Clear every listed slot. -/
def setNoneAll (old : List (Option BlkField)) (idxs : List Nat) :
    List (Option BlkField) :=
  idxs.foldl (fun o e => o.set e none) old

/-! ### Tree predicates -/

/-- No name occurs twice. -/
def distinctB : List Bytes → Bool
  | [] => true
  | a :: t => if a ∈ t then false else distinctB t

mutual

/-- The tree contains no `Merged` node (true of every parse result: the
spec's data model, §3, notes `Merged` is emitter-synthesised and never
produced by parsing). -/
def BlkField.noMerged : BlkField → Bool
  | .Value _ _ => true
  | .Merged _ _ => false
  | .Struct _ cs => noMergedList cs

/-- `noMerged` over a child list. -/
def noMergedList : List BlkField → Bool
  | [] => true
  | c :: t => c.noMerged && noMergedList t

end

mutual

/-- No two siblings of any `Struct` in the tree share a name. -/
def BlkField.structNamesUnique : BlkField → Bool
  | .Value _ _ => true
  | .Struct _ cs => distinctB (cs.map BlkField.getName) && structNamesUniqueList cs
  | .Merged _ cs => structNamesUniqueList cs

/-- `structNamesUnique` over a child list. -/
def structNamesUniqueList : List BlkField → Bool
  | [] => true
  | c :: t => c.structNamesUnique && structNamesUniqueList t

end

/-! ### JSON emission (`blk/plaintext_serialize/json.rs`) -/

/-- A `serde_json::Value`.  Numbers are carried as rationals: integer
payloads embed exactly, and `f32` payloads were already modelled as `Rat`
(the Rust emitter prints them `{:?}`-style, which round-trips the value,
so identifying a float with its numeric value is faithful).  Object
entries are kept in insertion order, matching the spec's "object with
ordered keys" (§4.9). -/
inductive Json where
  | null
  | bool (b : Bool)
  | num (q : Rat)
  | str (s : Bytes)
  | arr (elems : List Json)
  | obj (entries : List (Bytes × Json))

/-- `std_num`: wrap a float as a JSON number. -/
def stdNum (x : Rat) : Json := .num x

/-- Length of a JSON array (0 on other variants); used to state how many
rows the `Float12` emitter produces. -/
def jsonArrLen : Json → Nat
  | .arr l => l.length
  | _ => 0

/-- Rust `slice::array_chunks::<3>()`: exact chunks of three, remainder
dropped. -/
def chunksExact3 {α : Type} : List α → List (List α)
  | a :: b :: c :: rest => [a, b, c] :: chunksExact3 rest
  | _ => []

/-- The `BlkField::Value` arm of `as_serde_json`: how a single `BlkType`
renders to JSON. -/
def BlkType.valueAsJson : BlkType → Json
  | .Str s => .str s
  | .Int i => .num (i : Rat)
  | .Int2 l => .arr (l.map (fun i => Json.num (i : Rat)))
  | .Int3 l => .arr (l.map (fun i => Json.num (i : Rat)))
  | .Long i => .num (i : Rat)
  | .Float x => stdNum x
  | .Float2 l => .arr (l.map stdNum)
  | .Float3 l => .arr (l.map stdNum)
  | .Float4 l => .arr (l.map stdNum)
  | .Float12 l => .arr ((chunksExact3 l).map (fun c => Json.arr (c.map stdNum)))
  | .Bool b => .bool b
  | .Color r g b a => .arr [.num r, .num g, .num b, .num a]

mutual

/-- `BlkField::as_serde_obj`: run `merge_fields`, optionally
`apply_overrides`, then take the value component of `as_serde_json`.
The Rust recursion is not structural (it re-enters `as_serde_obj` through
`Merged` children of the rewritten tree), so we drive it with fuel,
strictly decreasing at every call; `asSerdeObjF_mono` below shows the
result is stable once the fuel suffices, and `none` only ever means
"out of fuel". -/
def asSerdeObjF : Nat → Bool → BlkField → Option Json
  | 0, _, _ => none
  | fuel + 1, so, t =>
    let t1 := t.mergeFields
    let t2 := if so then t1.applyOverrides else t1
    (asSerdeJsonF fuel so t2).map (fun p => p.2)

/-- `BlkField::as_serde_json`: returns the key and the rendered value. -/
def asSerdeJsonF : Nat → Bool → BlkField → Option (Bytes × Json)
  | 0, _, _ => none
  | fuel + 1, so, t =>
    match t with
    | .Value k v => some (k, v.valueAsJson)
    | .Struct k cs => (asSerdeJsonMapF fuel so cs).map (fun ps => (k, Json.obj ps))
    | .Merged k cs => (asSerdeObjMapF fuel so cs).map (fun js => (k, Json.arr js))

/-- `v.iter_mut().map(|e| e.as_serde_json(..))` collected. -/
def asSerdeJsonMapF : Nat → Bool → List BlkField → Option (List (Bytes × Json))
  | 0, _, _ => none
  | _ + 1, _, [] => some []
  | fuel + 1, so, c :: t =>
    match asSerdeJsonF fuel so c, asSerdeJsonMapF fuel so t with
    | some p, some ps => some (p :: ps)
    | _, _ => none

/-- `v.iter_mut().map(|e| e.as_serde_obj(..))` collected. -/
def asSerdeObjMapF : Nat → Bool → List BlkField → Option (List Json)
  | 0, _, _ => none
  | _ + 1, _, [] => some []
  | fuel + 1, so, c :: t =>
    match asSerdeObjF fuel so c, asSerdeObjMapF fuel so t with
    | some j, some js => some (j :: js)
    | _, _ => none

end

/-! ### Outcomes of Rust computations

`ok`/`err` mirror `Result`; `crash` models a Rust panic (index out of
bounds, `unwrap` on `Err`, stack exhaustion), which is a process abort and
not an error value. -/

inductive ROut (ε α : Type) where
  | ok (a : α)
  | err (e : ε)
  | crash (msg : String)

/-- Lift a `Result` into an `ROut` (the `?` operator). -/
def liftE {ε α : Type} : Except ε α → ROut ε α
  | .ok a => .ok a
  | .error e => .err e

/-- `slice.get(a..b)`: `some` of the sub-slice iff `a ≤ b ∧ b ≤ len`. -/
def sliceGet {α : Type} (l : List α) (a b : Nat) : Option (List α) :=
  if a ≤ b ∧ b ≤ l.length then some ((l.drop a).take (b - a)) else none

/-! ### ULEB128 and the binary parser (`src/binary/`) -/

/-- The `ParseError` variants used by `binary/parser.rs` (its `error.rs`
is not under `src/`; we declare exactly the constructors the parser
mentions, plus the two ULEB failure modes of spec §4.1).  Note there is
no `EmptyBlockTable` constructor: nothing in the parser sources under
`src/` produces such an error. -/
inductive ParseError where
  | DataRegionBoundsExceeded (lo hi : Nat)
  | ResidualBlockBuffer
  | BadBlkValue
  | UlebTruncated
  | UlebOverflow

/-- Worker for `uleb128`, accumulating 7-bit groups little-endian. -/
def uleb128Go : Bytes → Nat → Nat → Except ParseError (Nat × Nat)
  | [], _, _ => .error .UlebTruncated
  | b :: rest, shift, acc =>
    if 64 ≤ shift then .error .UlebOverflow
    else if b < 128 then .ok (shift / 7 + 1, acc + b * 2 ^ shift)
    else uleb128Go rest (shift + 7) (acc + (b - 128) * 2 ^ shift)

/-- Modelled from the spec: `uleb128` (`binary/leb128.rs` is not under
`src/`); §4.1 — returns `(bytes_consumed, value)`, fails `Truncated` when
the slice ends before a terminating byte, `Overflow` past the 64-bit
accumulator. -/
def uleb128 (l : Bytes) : Except ParseError (Nat × Nat) := uleb128Go l 0 0

/-- `NameMap`: the decompressed name-section bytes plus the parsed list. -/
structure NameMap where
  binary : Bytes
  parsed : List Bytes

/-- `parse_name_section` (`binary/nm_file.rs`): scan the buffer, and at
every NUL byte at index `i` push `file[start..i]` and then set
`start = i` (the byte lists are the `String::from_utf8_lossy` inputs). -/
def parseNameSection (file : Bytes) : List Bytes :=
  (file.enum.foldl
    (fun (st : Nat × List Bytes) p =>
      if p.2 = 0 then (p.1, st.2 ++ [(file.drop st.1).take (p.1 - st.1)]) else st)
    (0, [])).2

/-- The literal name every `name_id == 0` block receives. -/
def rootName : Bytes := strB "root"

/-- The `block_id_to_name` closure of `parse_blk` (`binary/parser.rs`):
id `0` is `"root"`, otherwise the table entry at `id - 1`; `none` models
the Rust index panic for an out-of-range id. -/
def blockIdToName (names : List Bytes) (id : Nat) : Option Bytes :=
  if id = 0 then some rootName else names.get? (id - 1)

/-- One decoded block-info record. -/
structure RawBlock where
  name : Bytes
  paramCount : Nat
  childCount : Nat
  firstChild : Option Nat

/-- The block-info loop of `parse_blk`: `blocks_count` records, each
`name_id`, `param_count`, `child_block_count` and (iff the latter is
positive) `first_child_block_index`, all ULEB128; every `uleb128` failure
is an `unwrap` panic in the source. -/
def parseBlocksLoop (blockInfo : Bytes) (names : List Bytes) :
    Nat → Nat → ROut ParseError (List RawBlock)
  | 0, _ => .ok []
  | count + 1, ptr =>
    match uleb128 (blockInfo.drop ptr) with
    | .error _ => .crash "unwrap on Err"
    | .ok (o1, nameId) =>
      match uleb128 (blockInfo.drop (ptr + o1)) with
      | .error _ => .crash "unwrap on Err"
      | .ok (o2, paramCount) =>
        match uleb128 (blockInfo.drop (ptr + o1 + o2)) with
        | .error _ => .crash "unwrap on Err"
        | .ok (o3, childCount) =>
          let firstStep : ROut ParseError (Nat × Option Nat) :=
            if 0 < childCount then
              match uleb128 (blockInfo.drop (ptr + o1 + o2 + o3)) with
              | .error _ => .crash "unwrap on Err"
              | .ok (o4, firstId) => .ok (o4, some firstId)
            else .ok (0, none)
          match firstStep with
          | .crash m => .crash m
          | .err e => .err e
          | .ok (o4, firstId) =>
            match blockIdToName names nameId with
            | none => .crash "index out of bounds"
            | some nm =>
              match parseBlocksLoop blockInfo names count (ptr + o1 + o2 + o3 + o4) with
              | .ok rest => .ok (⟨nm, paramCount, childCount, firstId⟩ :: rest)
              | .err e => .err e
              | .crash m => .crash m

/-- `chunks_exact(8)`: exact 8-byte chunks, remainder dropped. -/
def chunks8 : Bytes → List Bytes
  | a :: b :: c :: d :: e :: f :: g :: h :: t => [a, b, c, d, e, f, g, h] :: chunks8 t
  | _ => []

/-- The params-info loop of `parse_blk`: per 8-byte record, a 24-bit
little-endian `name_id`, a type tag and 4 payload bytes; the name lookup
`names[name_id]` panics when out of range, and a failed value decode is
the `BadBlkValue` error.  `fromRaw` abstracts the absent
`BlkType::from_raw_param_info` (`blk/blk_type.rs` is not under `src/`);
the source passes it either the shared slim name map or the fat tables. -/
def parseParamsLoop (fromRaw : Nat → Bytes → Bytes → List Bytes → Option BlkType)
    (isSlim : Bool) (nm : NameMap) (paramsData : Bytes) (names : List Bytes) :
    List Bytes → ROut ParseError (List (Nat × BlkField))
  | [] => .ok []
  | chunk :: rest =>
    let nameId := chunk.getD 0 0 + 256 * chunk.getD 1 0 + 65536 * chunk.getD 2 0
    let typeId := chunk.getD 3 0
    let data := chunk.drop 4
    match names.get? nameId with
    | none => .crash "index out of bounds"
    | some name =>
      let parsed :=
        if isSlim && typeId = 1 then fromRaw typeId data nm.binary nm.parsed
        else fromRaw typeId data paramsData names
      match parsed with
      | none => .err .BadBlkValue
      | some v =>
        match parseParamsLoop fromRaw isSlim nm paramsData names rest with
        | .ok tail => .ok ((nameId, .Value name v) :: tail)
        | .err e => .err e
        | .crash m => .crash m

/-- One entry of the flat block array (`binary/blk_block_hierarchy.rs`). -/
structure FlatBlock where
  name : Bytes
  fields : List BlkField
  blocks : Nat
  offset : Nat

/-- The flat-map loop of `parse_blk`: block `k` owns the next
`param_count k` entries of `results` (indexing past the end is a Rust
panic); a missing `first_child_block_index` becomes offset `0`
(`offset.unwrap_or(0)`). -/
def buildFlatBlocks (results : List (Nat × BlkField)) :
    List RawBlock → Nat → ROut ParseError (List FlatBlock)
  | [], _ => .ok []
  | b :: rest, ptr =>
    if ptr + b.paramCount ≤ results.length then
      match buildFlatBlocks results rest (ptr + b.paramCount) with
      | .ok fbs =>
        .ok (⟨b.name, ((results.drop ptr).take b.paramCount).map (fun r => r.2),
              b.childCount, b.firstChild.getD 0⟩ :: fbs)
      | .err e => .err e
      | .crash m => .crash m
    else .crash "index out of bounds"

/-- `FlatBlock::location_range`. -/
def FlatBlock.locationRange (b : FlatBlock) : Nat × Nat := (b.offset, b.offset + b.blocks)

/-- Insert the built child blocks one by one
(`block.insert_field(..).unwrap()`; the receiver is always a `Struct`,
so the `unwrap` cannot fire). -/
def insertAllFields (start : BlkField) (cs : List BlkField) : ROut ParseError BlkField :=
  cs.foldl
    (fun acc c =>
      match acc with
      | .ok a =>
        match a.insertField c with
        | some a2 => .ok a2
        | none => .crash "unwrap on None"
      | other => other)
    (.ok start)

mutual

/-- `BlkField::from_flat_blocks_with_parent`: materialise the parent as a
`Struct` of its own fields, then insert the recursively built blocks of
`flat_blocks[parent.location_range()]` (a panicking slice index).  The
Rust recursion is unbounded (a malformed table can make it self-refer),
so we drive it with fuel; exhaustion models the ensuing stack overflow,
and `from_flat_blocks` supplies fuel ample for every well-formed table. -/
def fromFlatBlocksWithParent : Nat → List FlatBlock → FlatBlock → ROut ParseError BlkField
  | 0, _, _ => .crash "stack overflow"
  | fuel + 1, all, parent =>
    match sliceGet all parent.offset (parent.offset + parent.blocks) with
    | none => .crash "index out of bounds"
    | some children =>
      match fromFlatChildren fuel all children with
      | .ok built => insertAllFields (.Struct parent.name parent.fields) built
      | .err e => .err e
      | .crash m => .crash m

/-- Build each child block in order. -/
def fromFlatChildren : Nat → List FlatBlock → List FlatBlock → ROut ParseError (List BlkField)
  | 0, _, _ => .crash "stack overflow"
  | _ + 1, _, [] => .ok []
  | fuel + 1, all, c :: t =>
    match fromFlatBlocksWithParent fuel all c with
    | .ok b =>
      match fromFlatChildren fuel all t with
      | .ok bs => .ok (b :: bs)
      | .err e => .err e
      | .crash m => .crash m
    | .err e => .err e
    | .crash m => .crash m

end

/-- `BlkField::from_flat_blocks`: clone `flat_blocks[0]` (a panicking
index on an empty vector) and rebuild from it. -/
def fromFlatBlocks (flatBlocks : List FlatBlock) : ROut ParseError BlkField :=
  match flatBlocks with
  | [] => .crash "index out of bounds"
  | first :: _ =>
    fromFlatBlocksWithParent (flatBlocks.length * flatBlocks.length + 2) flatBlocks first

/-- A monadic bind for `ROut` results of `Except`-valued steps. -/
def exceptStep {α β : Type} (x : Except ParseError α) (f : α → ROut ParseError β) :
    ROut ParseError β :=
  match x with
  | .error e => .err e
  | .ok a => f a

/-- `idx_file_offset` of `parse_blk`: read `len` bytes at `ptr`, failing
with `DataRegionBoundsExceeded` when the slice leaves the file. -/
def idxFileOffset (file : Bytes) (ptr len : Nat) : Except ParseError Bytes :=
  match sliceGet file ptr (ptr + len) with
  | some s => .ok s
  | none => .error (.DataRegionBoundsExceeded ptr (ptr + len))

/-- `parse_blk` (`binary/parser.rs`): the BLK structural parser.  Reads
the ULEB header fields, selects the fat inline name table or the shared
slim name map, decodes the params-info records, decodes the block-info
records, distributes params over blocks and rebuilds the tree.
`fromRaw` abstracts the absent `BlkType::from_raw_param_info`. -/
def parse_blk (fromRaw : Nat → Bytes → Bytes → List Bytes → Option BlkType)
    (file : Bytes) (isSlim : Bool) (sharedNameMap : NameMap) : ROut ParseError BlkField :=
  exceptStep (uleb128 file) (fun r1 =>
  let ptr1 := r1.1
  let namesStep : Except ParseError (Nat × List Bytes) :=
    if isSlim then .ok (ptr1, sharedNameMap.parsed)
    else
      match uleb128 (file.drop ptr1) with
      | .error e => .error e
      | .ok (o, namesDataSize) =>
        match idxFileOffset file (ptr1 + o) namesDataSize with
        | .error e => .error e
        | .ok sectionBytes => .ok (ptr1 + o + namesDataSize, parseNameSection sectionBytes)
  exceptStep namesStep (fun r2 =>
  let ptr2 := r2.1
  let names := r2.2
  exceptStep (uleb128 (file.drop ptr2)) (fun r3 =>
  let ptr3 := ptr2 + r3.1
  let blocksCount := r3.2
  exceptStep (uleb128 (file.drop ptr3)) (fun r4 =>
  let ptr4 := ptr3 + r4.1
  let paramsCount := r4.2
  exceptStep (uleb128 (file.drop ptr4)) (fun r5 =>
  let ptr5 := ptr4 + r5.1
  let paramsDataSize := r5.2
  exceptStep (idxFileOffset file ptr5 paramsDataSize) (fun paramsData =>
  let ptr6 := ptr5 + paramsDataSize
  exceptStep (idxFileOffset file ptr6 (paramsCount * 8)) (fun paramsInfo =>
  let ptr7 := ptr6 + paramsCount * 8
  let blockInfoStep : Except ParseError Bytes :=
    if ptr7 ≤ file.length then .ok (file.drop ptr7) else .error .ResidualBlockBuffer
  exceptStep blockInfoStep (fun blockInfo =>
  match parseParamsLoop fromRaw isSlim sharedNameMap paramsData names (chunks8 paramsInfo) with
  | .err e => .err e
  | .crash m => .crash m
  | .ok results =>
    match parseBlocksLoop blockInfo names blocksCount 0 with
    | .err e => .err e
    | .crash m => .crash m
    | .ok blocks =>
      match buildFlatBlocks results blocks 0 with
      | .err e => .err e
      | .crash m => .crash m
      | .ok flatMap => fromFlatBlocks flatMap))))))))

/-! ### FileType tags and the BLK unpacking entry points -/

/-- Modelled from the spec: the `FileType` enum (`blk/file.rs` is not
under `src/`); the tag-byte table and the `is_slim` / `is_zstd` /
`is_fat_zstd` predicates are §4.10 of the spec. -/
inductive FileType where
  | FAT
  | SLIM
  | SLIM_ZSTD
  | SLIM_ZSTD_DICT
  | FAT_ZSTD
  deriving DecidableEq

/-- Modelled from the spec: `FileType::from_byte`, per the §4.10 table;
any other byte is an error. -/
def FileType.fromByte (b : Nat) : Except String FileType :=
  if b = 1 then .ok .FAT
  else if b = 2 then .ok .SLIM
  else if b = 3 then .ok .SLIM_ZSTD
  else if b = 4 then .ok .SLIM_ZSTD_DICT
  else if b = 5 then .ok .FAT_ZSTD
  else .error "invalid file type byte"

/-- Modelled from the spec: `FileType::is_zstd`. -/
def FileType.isZstd : FileType → Bool
  | .SLIM_ZSTD => true
  | .SLIM_ZSTD_DICT => true
  | .FAT_ZSTD => true
  | _ => false

/-- Modelled from the spec: `FileType::is_slim`. -/
def FileType.isSlim : FileType → Bool
  | .SLIM => true
  | .SLIM_ZSTD => true
  | .SLIM_ZSTD_DICT => true
  | _ => false

/-- `unpack_blk` (`blk/mod.rs`): read the tag byte (`file[0]` panics on an
empty buffer); for zstd dialects replace the buffer by the decoded bytes
(adding a 1-byte offset first when the tag is `FAT_ZSTD`), otherwise keep
the buffer and set offset 1; then hand `&file[offset..]` to the parser —
a panicking range index: it aborts when `offset` exceeds the buffer
length, which is reachable exactly when the tag is `FAT_ZSTD` and the
decoded buffer is empty (start 1, length 0).
`decode_zstd` (3-argument form, `blk/zstd.rs` absent from `src/`) and
`parse_blk` of `blk/parser.rs` (also absent; it takes an optional shared
name map, unlike `binary/parser.rs`) are oracles. -/
def unpack_blk (decode_zstd : FileType → Bytes → Option Bytes → Except String Bytes)
    (parse : Bytes → Bool → Option NameMap → Except String BlkField)
    (file : Bytes) (dictionary : Option Bytes) (nm : Option NameMap) :
    ROut String BlkField :=
  match file with
  | [] => .crash "index out of bounds"
  | b0 :: rest =>
    match FileType.fromByte b0 with
    | .error e => .err e
    | .ok ft =>
      let offAndFile : Except String (Nat × Bytes) :=
        if ft.isZstd then
          (decode_zstd ft (b0 :: rest) dictionary).map
            (fun d => (if ft = .FAT_ZSTD then 1 else 0, d))
        else .ok (1, b0 :: rest)
      match offAndFile with
      | .error e => .err e
      | .ok (offset, f2) =>
        if offset ≤ f2.length then
          match parse (f2.drop offset) ft.isSlim nm with
          | .error e => .err e
          | .ok parsed => .ok parsed
        else .crash "range start out of bounds"

/-! ### The unpacker façade (`vromf/unpacker.rs`) -/

/-- An inner archive file.  `Path::extension()` has no byte-level model
here, so a file carries its path and the result of `extension()`
directly. -/
structure VFile where
  path : String
  ext : Option String
  contents : Bytes

/-- `FormattingConfiguration` is opaque to the claims; only carried. -/
structure FormattingConfiguration where
  flags : Nat

/-- `BlkOutputFormat`. -/
inductive BlkOutputFormat where
  | Json (config : FormattingConfiguration)
  | BlkText

/-- `maybe_blk` (`vromf/unpacker.rs`): extension is `blk`, contents
non-empty, and the first byte is a valid tag; the `&&` chain makes the
byte read reachable only for non-empty contents, which the nested match
mirrors. -/
def maybe_blk (f : VFile) : Bool :=
  f.ext = some "blk" &&
    match f.contents with
    | [] => false
    | b :: _ => (FileType.fromByte b).isOk

/-- Modelled from the spec: the 2-argument `decode_zstd` used by the
unpacker (`blk/zstd.rs` is not under `src/`).  It receives the whole
payload including the tag byte; per §4.10 the zstd frame follows the tag,
and for the fat-zstd tag only, one leading byte of the decompressed
buffer is skipped before structural parsing.  `zstd` abstracts the raw
Zstandard decompression (an external library). -/
def decode_zstd_auto (zstd : Bytes → Option Bytes → Except String Bytes)
    (file : Bytes) (dict : Option Bytes) : Except String Bytes :=
  match file with
  | [] => .error "empty zstd payload"
  | b :: rest =>
    (zstd rest dict).map
      (fun d =>
        match FileType.fromByte b with
        | .ok .FAT_ZSTD => d.drop 1
        | _ => d)

/-- The rendering tail of the per-file BLK branch: `as_ref_json` lives in
a module absent from `src/`, and the rendering itself is irrelevant to
the claims, so both renderers are kept as oracles. -/
def blkContinue (jsonR : FormattingConfiguration → BlkField → Except String Bytes)
    (textR : BlkField → Except String Bytes) (format : BlkOutputFormat)
    (parsed : BlkField) : Except String Bytes :=
  match format with
  | .Json config => jsonR config parsed
  | .BlkText => textR parsed

/-- The tail of the per-file BLK branch from the `parse_blk` call on: the
structural parser receives exactly `input`, and its tree is rendered. -/
def parseThenRender (parse : Bytes → Bool → Option NameMap → Except String BlkField)
    (jsonR : FormattingConfiguration → BlkField → Except String Bytes)
    (textR : BlkField → Except String Bytes) (format : BlkOutputFormat)
    (nm : Option NameMap) (slim : Bool) (input : Bytes) : ROut String Bytes :=
  match parse input slim nm with
  | .error e => .err e
  | .ok parsed =>
    match blkContinue jsonR textR format parsed with
    | .error e => .err e
    | .ok bytes => .ok bytes

/-- The shared per-file body of `unpack_all_with_progress` and
`unpack_one` (`vromf/unpacker.rs`, duplicated verbatim in the source):
non-BLK files (and every file when no output format is requested) pass
through unchanged; BLK files are tag-dispatched, optionally
zstd-decoded, parsed and rendered. -/
def unpackFileEntry (zstd : Bytes → Option Bytes → Except String Bytes)
    (parse : Bytes → Bool → Option NameMap → Except String BlkField)
    (jsonR : FormattingConfiguration → BlkField → Except String Bytes)
    (textR : BlkField → Except String Bytes)
    (dict : Option Bytes) (nm : Option NameMap)
    (fmt : Option BlkOutputFormat) (f : VFile) : ROut String Bytes :=
  if maybe_blk f then
    match fmt with
    | none => .ok f.contents
    | some format =>
      match f.contents with
      | [] => .crash "index out of bounds"
      | b0 :: rest =>
        match FileType.fromByte b0 with
        | .error e => .err e
        | .ok ft =>
          let offBuf : Except String (Nat × Bytes) :=
            if ft.isZstd then
              (decode_zstd_auto zstd (b0 :: rest) dict).map (fun d => (0, d))
            else .ok (1, b0 :: rest)
          match offBuf with
          | .error e => .err e
          | .ok (offset, buf) =>
            parseThenRender parse jsonR textR format nm ft.isSlim (buf.drop offset)
  else .ok f.contents

/-- `VromfUnpacker::unpack_one`: find the file by exact path, then run the
per-file body. -/
def unpack_one (zstd : Bytes → Option Bytes → Except String Bytes)
    (parse : Bytes → Bool → Option NameMap → Except String BlkField)
    (jsonR : FormattingConfiguration → BlkField → Except String Bytes)
    (textR : BlkField → Except String Bytes)
    (dict : Option Bytes) (nm : Option NameMap)
    (files : List VFile) (pathName : String) (fmt : Option BlkOutputFormat) :
    ROut String Bytes :=
  match files.find? (fun e => e.path = pathName) with
  | none => .err "File was not found in VROMF"
  | some f => unpackFileEntry zstd parse jsonR textR dict nm fmt f

/-- `VromfUnpacker::unpack_all` (the rayon fan-out of
`unpack_all_with_progress` collects into `Result<Vec<_>>`; the
data-parallel map is modelled sequentially, order-preserving per spec
§5). -/
def unpack_all (zstd : Bytes → Option Bytes → Except String Bytes)
    (parse : Bytes → Bool → Option NameMap → Except String BlkField)
    (jsonR : FormattingConfiguration → BlkField → Except String Bytes)
    (textR : BlkField → Except String Bytes)
    (dict : Option Bytes) (nm : Option NameMap)
    (fmt : Option BlkOutputFormat) : List VFile → ROut String (List Bytes)
  | [] => .ok []
  | f :: t =>
    match unpackFileEntry zstd parse jsonR textR dict nm fmt f with
    | .ok bs =>
      match unpack_all zstd parse jsonR textR dict nm fmt t with
      | .ok rest => .ok (bs :: rest)
      | .err e => .err e
      | .crash m => .crash m
    | .err e => .err e
    | .crash m => .crash m

/-! ### The VROMF outer container (`vromf/binary_container.rs`) -/

/-- Modelled from the spec: `HeaderType` (§3; `vromf/enums.rs` is not
under `src/`). -/
inductive HeaderType where
  | Simple
  | Extended
  deriving DecidableEq

/-- `HeaderType::is_extended`. -/
def HeaderType.isExtended : HeaderType → Bool
  | .Extended => true
  | .Simple => false

/-- Modelled from the spec: the packing tag (§3). -/
inductive PackType where
  | ZSTD
  | Obfuscated
  | ObfuscatedAndZstd
  | Plain
  deriving DecidableEq

/-- `PackType::is_compressed` (§3 flags). -/
def PackType.isCompressed : PackType → Bool
  | .ZSTD => true
  | .ObfuscatedAndZstd => true
  | _ => false

/-- `PackType::is_obfuscated` (§3 flags). -/
def PackType.isObfuscated : PackType → Bool
  | .Obfuscated => true
  | .ObfuscatedAndZstd => true
  | _ => false

/-- `Metadata` (`vromf/header.rs` is not under `src/`; fields from the
assignments in `decode_bin_vromf` and spec §3).  The platform id is kept
raw. -/
structure Metadata where
  headerType : Option HeaderType
  platform : Option Nat
  packing : Option PackType
  version : Option (List Nat)

/-- Little-endian byte-list to natural number. -/
def leNat : Bytes → Nat
  | [] => 0
  | b :: t => b + 256 * leNat t

/-- The payload-slice selection of `decode_bin_vromf`: the extended
header (when present) with its byte-reversed version quad, then the
table choosing between the remaining bytes, `ext_size` bytes or `size`
bytes. -/
def vromfInnerData (headerType : HeaderType) (platform : Nat) (packType : PackType)
    (extendedHeaderSize size : Nat) (file : Bytes) : Except String (Metadata × Bytes) :=
  if headerType.isExtended then
    match sliceGet file 16 24 with
    | none => .error "indexing buffer out of bounds"
    | some s =>
      let version := [s.getD 7 0, s.getD 6 0, s.getD 5 0, s.getD 4 0]
      let md : Metadata := ⟨some headerType, some platform, some packType, some version⟩
      if extendedHeaderSize = 0 then .ok (md, file.drop 24)
      else
        match sliceGet file 24 (24 + extendedHeaderSize) with
        | none => .error "indexing buffer out of bounds"
        | some inner => .ok (md, inner)
  else
    let md : Metadata := ⟨some headerType, some platform, some packType, none⟩
    if packType.isCompressed then
      match sliceGet file 16 (16 + extendedHeaderSize) with
      | none => .error "indexing buffer out of bounds"
      | some inner => .ok (md, inner)
    else
      match sliceGet file 16 (16 + size) with
      | none => .error "indexing buffer out of bounds"
      | some inner => .ok (md, inner)

/-- The header phase of `decode_bin_vromf`: four u32 reads feeding the
header-type, platform and packing decoders, then the payload-slice
selection.  No deobfuscation or decompression happens here; the decoded
pack type is returned alongside. -/
def decode_bin_vromf_header (hdrOf : Nat → Except String HeaderType)
    (platOf : Nat → Except String Nat)
    (packOf : Nat → Except String (PackType × Nat))
    (file : Bytes) : Except String (PackType × Metadata × Bytes) :=
  match sliceGet file 0 4 with
  | none => .error "indexing buffer out of bounds"
  | some hBytes =>
    match hdrOf (leNat hBytes) with
    | .error e => .error e
    | .ok headerType =>
      match sliceGet file 4 8 with
      | none => .error "indexing buffer out of bounds"
      | some pBytes =>
        match platOf (leNat pBytes) with
        | .error e => .error e
        | .ok platform =>
          match sliceGet file 8 12 with
          | none => .error "indexing buffer out of bounds"
          | some sBytes =>
            match sliceGet file 12 16 with
            | none => .error "indexing buffer out of bounds"
            | some hpBytes =>
              match packOf (leNat hpBytes) with
              | .error e => .error e
              | .ok packed =>
                match vromfInnerData headerType platform packed.1 packed.2
                    (leNat sBytes) file with
                | .error e => .error e
                | .ok (md, inner) => .ok (packed.1, md, inner)

/-- `decode_bin_vromf` (`vromf/binary_container.rs`).  The header-type,
platform and packing decoders (`HeaderType::try_from`,
`PlatformType::try_from`, `pack_type_from_aligned` — all in files absent
from `src/`), the deobfuscator and `zstd::decode_all` (external crate)
are oracles; everything else follows the source line by line: the header
phase above, then a direct return when the packing is not obfuscated,
else deobfuscation and (when compressed) zstd decoding. -/
def decode_bin_vromf (hdrOf : Nat → Except String HeaderType)
    (platOf : Nat → Except String Nat)
    (packOf : Nat → Except String (PackType × Nat))
    (deobfuscate : Bytes → Bytes)
    (zstdDecodeAll : Bytes → Except String Bytes)
    (file : Bytes) : Except String (Bytes × Metadata) :=
  match decode_bin_vromf_header hdrOf platOf packOf file with
  | .error e => .error e
  | .ok (packType, md, innerData) =>
    if !packType.isObfuscated then .ok (innerData, md)
    else
      let output := deobfuscate innerData
      if packType.isCompressed then
        match zstdDecodeAll output with
        | .error e => .error e
        | .ok out2 => .ok (out2, md)
      else .ok (output, md)

/-! ### Concrete fixtures and witness instantiations

Closed inputs used to evaluate the embedded functions: the spec's two
fixtures, and fixed instances of the oracle parameters. -/

/-- The spec's override fixture: `{value: Int 0, override:value: Int 42}`. -/
def ovFixture : BlkField :=
  .Struct (strB "root")
    [.Value (strB "value") (.Int 0), .Value (strB "override:value") (.Int 42)]

/-- Two plain same-named siblings, no override entry at all. -/
def dupFixture : BlkField :=
  .Struct (strB "root") [.Value (strB "a") (.Int 1), .Value (strB "a") (.Int 2)]

/-- The spec's duplicate-key fixture: six `mass` siblings valued 1.0..6.0. -/
def sixMass : BlkField :=
  .Struct (strB "root")
    [.Value (strB "mass") (.Float 1), .Value (strB "mass") (.Float 2),
     .Value (strB "mass") (.Float 3), .Value (strB "mass") (.Float 4),
     .Value (strB "mass") (.Float 5), .Value (strB "mass") (.Float 6)]

/-- The JSON object `{"mass": [1.0, 2.0, 3.0, 4.0, 5.0, 6.0]}`. -/
def massJson : Json :=
  .obj [(strB "mass", .arr [stdNum 1, stdNum 2, stdNum 3, stdNum 4, stdNum 5, stdNum 6])]

/-- A fixed 3-argument `decode_zstd` oracle: always decodes to `[9, 8]`. -/
def dzW : FileType → Bytes → Option Bytes → Except String Bytes :=
  fun _ _ _ => .ok [9, 8]

/-- A 3-argument `decode_zstd` oracle decoding everything to the empty
buffer (a legitimate empty zstd frame). -/
def dzE : FileType → Bytes → Option Bytes → Except String Bytes :=
  fun _ _ _ => .ok []

/-- A fixed raw-zstd oracle: the identity decoder. -/
def zstdW : Bytes → Option Bytes → Except String Bytes := fun b _ => .ok b

/-- A fixed structural-parse oracle: records the input length. -/
def parseW : Bytes → Bool → Option NameMap → Except String BlkField :=
  fun b _ _ => .ok (.Value (strB "p") (.Int b.length))

/-- A fixed JSON renderer oracle. -/
def jsonRW : FormattingConfiguration → BlkField → Except String Bytes :=
  fun _ _ => .ok [1]

/-- A fixed BLK-text renderer oracle. -/
def textRW : BlkField → Except String Bytes := fun _ => .ok [2]

/-- A non-BLK inner file. -/
def txtFile : VFile := ⟨"a.txt", some "txt", [1, 2, 3]⟩

/-- Fixed VROMF header-type decoder: every word reads as `Simple`. -/
def hdrOfW : Nat → Except String HeaderType := fun _ => .ok .Simple

/-- Fixed platform decoder: keep the raw word. -/
def platOfW : Nat → Except String Nat := fun n => .ok n

/-- Fixed packing decoder: plain (neither obfuscated nor compressed). -/
def packOfW : Nat → Except String (PackType × Nat) := fun n => .ok (.Plain, n)

/-- A deobfuscator oracle (the identity). -/
def deobW1 : Bytes → Bytes := fun b => b

/-- A second, different deobfuscator oracle. -/
def deobW2 : Bytes → Bytes := fun b => 0 :: b

/-- A `zstd::decode_all` oracle that always fails. -/
def zdW1 : Bytes → Except String Bytes := fun _ => .error "unused"

/-- A second `zstd::decode_all` oracle (the identity). -/
def zdW2 : Bytes → Except String Bytes := fun b => .ok b

/-- A 18-byte VROMF image: zeroed words except `size = 2`, then the
2-byte payload `[7, 9]`. -/
def vromfFileW : Bytes :=
  [0, 0, 0, 0, 0, 0, 0, 0, 2, 0, 0, 0, 0, 0, 0, 0, 7, 9]

/-- The metadata `decode_bin_vromf` reports for `vromfFileW`. -/
def mdW : Metadata := ⟨some .Simple, some 0, some .Plain, none⟩

/-! ## Theorems -/

/-- Structural induction over `BlkField` with a membership hypothesis for
`Struct` children. -/
theorem BlkField.inductionOn (P : BlkField → Prop)
    (hv : ∀ n v, P (.Value n v))
    (hm : ∀ n cs, P (.Merged n cs))
    (hs : ∀ n cs, (∀ c ∈ cs, P c) → P (.Struct n cs)) : ∀ t, P t
  | .Value n v => hv n v
  | .Merged n cs => hm n cs
  | .Struct n cs => hs n cs (fun c hc => BlkField.inductionOn P hv hm hs c)
decreasing_by
  have := List.sizeOf_lt_of_mem hc
  simp only [BlkField.Struct.sizeOf_spec]
  omega

theorem applyOverridesMap_eq (cs : List BlkField) :
    applyOverridesMap cs = cs.map BlkField.applyOverrides := by
  induction cs with
  | nil => rfl
  | cons c t ih => simp [applyOverridesMap, ih]

theorem specApplyOverridesMap_eq (cs : List BlkField) :
    specApplyOverridesMap cs = cs.map specApplyOverrides := by
  induction cs with
  | nil => rfl
  | cons c t ih => simp [specApplyOverridesMap, ih]

theorem mergeFieldsMap_eq (cs : List BlkField) :
    mergeFieldsMap cs = cs.map BlkField.mergeFields := by
  induction cs with
  | nil => rfl
  | cons c t ih => simp [mergeFieldsMap, ih]

theorem getName_setName (x : BlkField) (k : Bytes) : (x.setName k).getName = k := by
  cases x <;> rfl

theorem applyOverrides_setName (x : BlkField) (k : Bytes) :
    (x.setName k).applyOverrides = x.applyOverrides.setName k := by
  cases x <;> rfl

theorem getLast?_cons_or {α : Type} (a : α) (l : List α) :
    (a :: l).getLast? = l.getLast?.or (some a) := by
  induction l generalizing a with
  | nil => rfl
  | cons b m ih =>
    rw [List.getLast?_cons_cons, ih b]
    cases m.getLast? <;> rfl

/-! ### IndexMap lemmas -/

theorem imKeys_insert (m : IM) (p : Bytes × BlkField) :
    imKeys (imInsert m p) = dedupStep (imKeys m) p.1 := by
  induction m with
  | nil => simp [imInsert, imKeys, dedupStep]
  | cons q t ih =>
    by_cases h : q.1 = p.1
    · simp [imInsert, imKeys, dedupStep, h]
    · have h' : ¬(p.1 = q.1) := fun hx => h hx.symm
      simp only [imInsert, if_neg h, imKeys, List.map_cons]
      have ih' : List.map (fun p => p.1) (imInsert t p)
          = dedupStep (List.map (fun p => p.1) t) p.1 := ih
      rw [ih']
      unfold dedupStep
      by_cases hmem : p.1 ∈ List.map (fun p => p.1) t
      · simp [hmem, h']
      · simp [hmem, h']

theorem imLookup_insert (m : IM) (p : Bytes × BlkField) (k : Bytes) :
    imLookup (imInsert m p) k = if k = p.1 then some p.2 else imLookup m k := by
  induction m with
  | nil =>
    simp only [imInsert, imLookup]
    by_cases h : k = p.1
    · simp [h]
    · have h' : ¬ p.1 = k := fun hx => h hx.symm
      simp [h, h']
  | cons q t ih =>
    by_cases hq : q.1 = p.1
    · simp only [imInsert, if_pos hq, imLookup]
      by_cases hqk : q.1 = k
      · simp [hqk, (hqk.symm.trans hq : k = p.1)]
      · have hk : ¬ k = p.1 := fun hx => hqk (hq.trans hx.symm)
        simp [hqk, hk]
    · simp only [imInsert, if_neg hq, imLookup, ih]
      by_cases hqk : q.1 = k <;> by_cases hk : k = p.1
      · exact absurd (hqk.trans hk) hq
      · simp [hqk, hk]
      · simp [hqk, hk, hq]
      · simp [hqk, hk]

theorem imContains_iff (m : IM) (k : Bytes) :
    imContains m k = true ↔ k ∈ imKeys m := by
  induction m with
  | nil => simp [imContains, imKeys]
  | cons q t ih =>
    by_cases h : q.1 = k
    · simp [imContains, imKeys, h]
    · have h' : ¬(k = q.1) := fun hx => h hx.symm
      simp [imContains, imKeys, h, h', ih]

theorem imKeys_update (m : IM) (k : Bytes) (v : BlkField) :
    imKeys (imUpdate m k v) = imKeys m := by
  induction m with
  | nil => rfl
  | cons q t ih =>
    have ih' : List.map (fun p => p.1) (imUpdate t k v) = List.map (fun p => p.1) t := ih
    by_cases h : q.1 = k <;> simp [imUpdate, imKeys, h, ih']

theorem imLookup_update (m : IM) (k : Bytes) (v : BlkField) (k' : Bytes) :
    imLookup (imUpdate m k v) k' =
      if k' = k ∧ k ∈ imKeys m then some v else imLookup m k' := by
  induction m with
  | nil => simp [imUpdate, imLookup, imKeys]
  | cons q t ih =>
    by_cases h : q.1 = k
    · simp only [imUpdate, if_pos h, imLookup]
      by_cases hk : k' = k
      · have hqk' : q.1 = k' := h.trans hk.symm
        have hmem : k ∈ imKeys (q :: t) := by
          simp [imKeys, List.mem_cons]
          exact Or.inl h.symm
        simp [hqk', hk, hmem]
      · have hqk' : ¬ q.1 = k' := fun hx => hk (hx.symm.trans h)
        simp [hqk', hk]
    · have hkeys : (k ∈ imKeys (q :: t)) ↔ k ∈ imKeys t := by
        simp only [imKeys, List.map_cons, List.mem_cons]
        exact ⟨fun hx => hx.resolve_left (fun hx1 => h hx1.symm), Or.inr⟩
      simp only [imUpdate, if_neg h, imLookup, ih]
      by_cases hqk : q.1 = k'
      · by_cases hk : k' = k
        · exact absurd (hqk.trans hk) h
        · simp [hqk, hk]
      · by_cases hk : k' = k <;> by_cases hin : k ∈ imKeys t <;>
          simp_all [imLookup]

theorem im_canonical (m : IM) (d : BlkField) (h : (imKeys m).Nodup) :
    m = (imKeys m).map (fun k => (k, (imLookup m k).getD d)) := by
  induction m with
  | nil => rfl
  | cons q t ih =>
    have hq : q.1 ∉ imKeys t := by
      simp only [imKeys, List.map_cons, List.nodup_cons] at h
      exact h.1
    have ht : (imKeys t).Nodup := by
      simp only [imKeys, List.map_cons, List.nodup_cons] at h
      exact h.2
    show q :: t = (q.1 :: imKeys t).map (fun k => (k, (imLookup (q :: t) k).getD d))
    rw [List.map_cons]
    have h1 : imLookup (q :: t) q.1 = some q.2 := by simp [imLookup]
    have hcong : ∀ k ∈ imKeys t,
        (k, (imLookup (q :: t) k).getD d) = (k, (imLookup t k).getD d) := by
      intro k hk
      have hne : ¬(q.1 = k) := fun hx => hq (hx ▸ hk)
      simp [imLookup, hne]
    rw [List.map_congr_left hcong, h1]
    exact congrArg₂ (· :: ·) rfl (ih ht)

/-! ### dedupFirst lemmas -/

theorem dedup_go_nodup (l : List Bytes) (acc : List Bytes) (h : acc.Nodup) :
    (l.foldl dedupStep acc).Nodup := by
  induction l generalizing acc with
  | nil => exact h
  | cons a t ih =>
    simp only [List.foldl_cons]
    apply ih
    by_cases hmem : a ∈ acc
    · simpa [dedupStep, hmem] using h
    · simp only [dedupStep, if_neg hmem]
      simp [List.nodup_append, h, hmem]

theorem dedupFirst_nodup (l : List Bytes) : (dedupFirst l).Nodup :=
  dedup_go_nodup l [] List.nodup_nil

theorem dedup_go_mem (l : List Bytes) (acc : List Bytes) (x : Bytes) :
    x ∈ l.foldl dedupStep acc ↔ x ∈ acc ∨ x ∈ l := by
  induction l generalizing acc with
  | nil => simp
  | cons a t ih =>
    simp only [List.foldl_cons, ih]
    by_cases hmem : a ∈ acc
    · simp only [dedupStep, if_pos hmem, List.mem_cons]
      constructor
      · rintro (h | h)
        · exact Or.inl h
        · exact Or.inr (Or.inr h)
      · rintro (h | h | h)
        · exact Or.inl h
        · exact Or.inl (h ▸ hmem)
        · exact Or.inr h
    · simp only [dedupStep, if_neg hmem, List.mem_append, List.mem_singleton,
        List.mem_cons]
      tauto

theorem dedupFirst_mem (l : List Bytes) (x : Bytes) :
    x ∈ dedupFirst l ↔ x ∈ l := by
  rw [dedupFirst, dedup_go_mem]
  simp

theorem dedup_go_eq_self (l : List Bytes) (acc : List Bytes)
    (h1 : ∀ x ∈ l, x ∉ acc) (h2 : l.Nodup) : l.foldl dedupStep acc = acc ++ l := by
  induction l generalizing acc with
  | nil => simp
  | cons a t ih =>
    simp only [List.foldl_cons]
    have ha : a ∉ acc := h1 a (List.mem_cons_self a t)
    rw [dedupStep, if_neg ha]
    rw [List.nodup_cons] at h2
    rw [ih (acc ++ [a])
      (fun x hx => by
        simp only [List.mem_append, List.mem_singleton]
        rintro (h | h)
        · exact h1 x (List.mem_cons_of_mem a hx) h
        · exact h2.1 (h ▸ hx))
      h2.2]
    simp

theorem dedupFirst_eq_self (l : List Bytes) (h : l.Nodup) : dedupFirst l = l := by
  rw [dedupFirst, dedup_go_eq_self l [] (by simp) h]
  simp

/-! ### Characterizing the two folds of the override pass -/

theorem or_some_absorb {α : Type} (x : Option α) (a : α) (y : Option α) :
    (x.or (some a)).or y = x.or (some a) := by
  cases x <;> rfl

theorem map_or {α β : Type} (f : α → β) (x y : Option α) :
    (x.or y).map f = (x.map f).or (y.map f) := by
  cases x <;> rfl

theorem keys_foldl_insert (pairs : List (Bytes × BlkField)) (m : IM) :
    imKeys (pairs.foldl imInsert m) =
      (pairs.map (fun p => p.1)).foldl dedupStep (imKeys m) := by
  induction pairs generalizing m with
  | nil => rfl
  | cons p t ih =>
    simp only [List.foldl_cons, List.map_cons]
    rw [ih, imKeys_insert]

theorem lookup_foldl_insert (pairs : List (Bytes × BlkField)) (m : IM) (k : Bytes) :
    imLookup (pairs.foldl imInsert m) k =
      (((pairs.filter (fun p => p.1 = k)).getLast?).map (fun p => p.2)).or
        (imLookup m k) := by
  induction pairs generalizing m with
  | nil => rfl
  | cons p t ih =>
    simp only [List.foldl_cons]
    rw [ih, imLookup_insert]
    by_cases h : p.1 = k
    · have hk : k = p.1 := h.symm
      rw [List.filter_cons_of_pos (by simp [h]), getLast?_cons_or, map_or, if_pos hk]
      simp only [Option.map_some']
      rw [or_some_absorb]
    · have hk : ¬ k = p.1 := fun hx => h hx.symm
      rw [List.filter_cons_of_neg (by simp [h]), if_neg hk]

theorem ovStep_eq (m : IM) (p : Bytes × BlkField) :
    ovStep m p =
      if imContains m (overrideTarget p.1) then
        imUpdate m (overrideTarget p.1) (p.2.setName (overrideTarget p.1))
      else m := rfl

theorem keys_foldl_ov (ovs : List (Bytes × BlkField)) (m : IM) :
    imKeys (ovs.foldl ovStep m) = imKeys m := by
  induction ovs generalizing m with
  | nil => rfl
  | cons p t ih =>
    simp only [List.foldl_cons]
    rw [ih, ovStep_eq]
    by_cases hc : imContains m (overrideTarget p.1)
    · rw [if_pos hc, imKeys_update]
    · rw [if_neg hc]

theorem lookup_foldl_ov (ovs : List (Bytes × BlkField)) (m : IM) (k : Bytes) :
    imLookup (ovs.foldl ovStep m) k =
      if k ∈ imKeys m then
        (((ovs.filter (fun p => overrideTarget p.1 = k)).getLast?).map
          (fun p => p.2.setName k)).or (imLookup m k)
      else imLookup m k := by
  induction ovs generalizing m with
  | nil =>
    by_cases h : k ∈ imKeys m <;> simp [h]
  | cons p t ih =>
    simp only [List.foldl_cons]
    rw [ih, ovStep_eq]
    by_cases hc : imContains m (overrideTarget p.1)
    · rw [if_pos hc, imKeys_update]
      have htgt : overrideTarget p.1 ∈ imKeys m := (imContains_iff m _).mp hc
      by_cases hk : k ∈ imKeys m
      · rw [if_pos hk, if_pos hk, imLookup_update]
        by_cases he : overrideTarget p.1 = k
        · rw [List.filter_cons_of_pos (by simp [he]), getLast?_cons_or, map_or]
          simp only [Option.map_some']
          rw [or_some_absorb]
          have hcond : (k = overrideTarget p.1 ∧ overrideTarget p.1 ∈ imKeys m) :=
            ⟨he.symm, htgt⟩
          rw [if_pos hcond, he]
        · rw [List.filter_cons_of_neg (by simp [he]),
            if_neg (fun hx => he hx.1.symm)]
      · rw [if_neg hk, if_neg hk, imLookup_update]
        have : ¬(k = overrideTarget p.1 ∧ overrideTarget p.1 ∈ imKeys m) := by
          rintro ⟨h1, _⟩
          exact hk (h1 ▸ htgt)
        rw [if_neg this]
    · rw [if_neg hc]
      have htgt : ¬ overrideTarget p.1 ∈ imKeys m :=
        fun hx => hc ((imContains_iff m _).mpr hx)
      by_cases hk : k ∈ imKeys m
      · have he : ¬ overrideTarget p.1 = k := fun hx => htgt (hx ▸ hk)
        rw [if_pos hk, if_pos hk, List.filter_cons_of_neg (by simp [he])]
      · rw [if_neg hk, if_neg hk]

theorem filter_map_pairs (P : Bytes → Bool) (l : List BlkField) :
    (l.map pairWithName).filter (fun p => P p.1) =
      (l.filter (fun e => P e.getName)).map pairWithName := by
  rw [List.filter_map]
  rfl

theorem map_fst_pairs (l : List BlkField) :
    (l.map pairWithName).map (fun p => p.1) = l.map BlkField.getName := by
  rw [List.map_map]
  rfl

/-- The override pass of the source (IndexMap build plus override loop)
computes exactly the declarative pass. -/
theorem applyOverridesList_eq_spec (values : List BlkField) :
    applyOverridesList values = specApplyOverridesList values := by
  unfold applyOverridesList specApplyOverridesList
  rw [List.partition_eq_filter_filter]
  simp only
  rw [filter_map_pairs (fun s => ovPrefix.isPrefixOf s)]
  have e1 : (values.map pairWithName).filter (not ∘ fun p => List.isPrefixOf ovPrefix p.1)
      = (values.filter (fun e => !(List.isPrefixOf ovPrefix e.getName))).map pairWithName :=
    filter_map_pairs (fun s => !(List.isPrefixOf ovPrefix s)) values
  rw [e1]
  set keeps := values.filter (fun e => !(ovPrefix.isPrefixOf e.getName)) with hkeeps
  set ovs := values.filter (fun e => ovPrefix.isPrefixOf e.getName) with hovs
  set map0 : IM := (keeps.map pairWithName).foldl imInsert [] with hmap0
  set map1 : IM := (ovs.map pairWithName).foldl ovStep map0 with hmap1
  have K0 : imKeys map0 = dedupFirst (keeps.map BlkField.getName) := by
    rw [hmap0, keys_foldl_insert, map_fst_pairs]
    rfl
  have K1 : imKeys map1 = imKeys map0 := by
    rw [hmap1, keys_foldl_ov]
  have ND : (imKeys map1).Nodup := by
    rw [K1, K0]
    exact dedupFirst_nodup _
  have hcanon := im_canonical map1 dummyField ND
  conv_lhs => rw [hcanon]
  rw [List.map_map, K1, K0]
  apply List.map_congr_left
  intro k hk
  show (imLookup map1 k).getD dummyField = specEntry ovs keeps k
  have hkmem : k ∈ keeps.map BlkField.getName := (dedupFirst_mem _ _).mp hk
  have hkeys0 : k ∈ imKeys map0 := by rw [K0]; exact hk
  have lookup1 : imLookup map1 k =
      ((((ovs.map pairWithName).filter (fun p => overrideTarget p.1 = k)).getLast?).map
        (fun p => p.2.setName k)).or (imLookup map0 k) := by
    rw [hmap1, lookup_foldl_ov, if_pos hkeys0]
  have hov_conv : (((ovs.map pairWithName).filter
      (fun p => overrideTarget p.1 = k)).getLast?).map (fun p => p.2.setName k) =
      ((ovs.filter (fun o => overrideTarget o.getName = k)).getLast?).map
        (fun o => o.setName k) := by
    rw [filter_map_pairs (fun s => decide (overrideTarget s = k)),
      List.getLast?_map pairWithName, Option.map_map]
    rfl
  have lookup0 : imLookup map0 k = lastWithName k keeps := by
    rw [hmap0, lookup_foldl_insert]
    have hnil : imLookup ([] : IM) k = none := rfl
    rw [hnil, Option.or_none,
      filter_map_pairs (fun s => decide (s = k)),
      List.getLast?_map pairWithName, Option.map_map]
    unfold lastWithName
    cases (keeps.filter (fun e => e.getName = k)).getLast? <;> rfl
  rw [lookup1, hov_conv, lookup0]
  unfold specEntry
  cases hlast : (ovs.filter (fun o => overrideTarget o.getName = k)).getLast? with
  | some o => rfl
  | none =>
    simp only [Option.map_none', Option.none_or]
    obtain ⟨e, he, hke⟩ := List.mem_map.mp hkmem
    have hmemf : e ∈ keeps.filter (fun e => e.getName = k) :=
      List.mem_filter.mpr ⟨he, by simp [hke]⟩
    have hne : keeps.filter (fun e => e.getName = k) ≠ [] :=
      List.ne_nil_of_mem hmemf
    obtain ⟨w, hw⟩ := Option.isSome_iff_exists.mp (List.getLast?_isSome.mpr hne)
    unfold lastWithName
    rw [hw]
    rfl

/-- `apply_overrides` computes the declarative pass on every tree. -/
theorem applyOverrides_eq_specApplyOverrides :
    ∀ t : BlkField, t.applyOverrides = specApplyOverrides t := by
  intro t
  refine BlkField.inductionOn (fun u => u.applyOverrides = specApplyOverrides u)
    (fun n v => rfl) (fun n cs => rfl) (fun n cs ih => ?_) t
  show BlkField.Struct n (applyOverridesList (applyOverridesMap cs))
      = BlkField.Struct n (specApplyOverridesList (specApplyOverridesMap cs))
  rw [applyOverridesMap_eq, specApplyOverridesMap_eq, applyOverridesList_eq_spec]
  exact congrArg (BlkField.Struct n)
    (congrArg specApplyOverridesList (List.map_congr_left ih))

/-! ### Idempotence machinery -/

theorem mem_of_getLast?_eq {α : Type} {l : List α} {a : α}
    (h : l.getLast? = some a) : a ∈ l :=
  List.mem_of_mem_getLast? h

theorem specEntry_name (ovs keeps : List BlkField) (k : Bytes) :
    (specEntry ovs keeps k).getName = k := by
  unfold specEntry
  cases h : (ovs.filter (fun o => overrideTarget o.getName = k)).getLast? with
  | some o => exact getName_setName o k
  | none =>
    unfold lastWithName
    cases h2 : (keeps.filter (fun e => e.getName = k)).getLast? with
    | none => rfl
    | some w =>
      have hw : w ∈ keeps.filter (fun e => e.getName = k) := mem_of_getLast?_eq h2
      have := (List.mem_filter.mp hw).2
      simpa using this

theorem spec_names (l : List BlkField) :
    (specApplyOverridesList l).map BlkField.getName
      = dedupFirst ((l.filter (fun e => !(ovPrefix.isPrefixOf e.getName))).map
          BlkField.getName) := by
  unfold specApplyOverridesList
  simp only
  rw [List.map_map]
  have h : ∀ k ∈ dedupFirst ((l.filter (fun e => !(ovPrefix.isPrefixOf e.getName))).map
      BlkField.getName),
      (BlkField.getName ∘ specEntry (l.filter (fun e => ovPrefix.isPrefixOf e.getName))
        (l.filter (fun e => !(ovPrefix.isPrefixOf e.getName)))) k = k := by
    intro k _
    exact specEntry_name _ _ k
  rw [List.map_congr_left h, List.map_id']

theorem spec_mem (l : List BlkField) (x : BlkField)
    (hx : x ∈ specApplyOverridesList l) :
    ∃ y ∈ l, x = y ∨ ∃ k, x = y.setName k := by
  unfold specApplyOverridesList at hx
  simp only at hx
  obtain ⟨k, hk, hkx⟩ := List.mem_map.mp hx
  revert hkx
  unfold specEntry
  cases hlast : ((l.filter (fun e => ovPrefix.isPrefixOf e.getName)).filter
      (fun o => overrideTarget o.getName = k)).getLast? with
  | some o =>
    intro hkx
    have ho : o ∈ l :=
      List.mem_of_mem_filter (List.mem_of_mem_filter (mem_of_getLast?_eq hlast))
    exact ⟨o, ho, Or.inr ⟨k, hkx.symm⟩⟩
  | none =>
    intro hkx
    have hkmem := (dedupFirst_mem _ _).mp hk
    obtain ⟨e, he, hke⟩ := List.mem_map.mp hkmem
    have hmemf : e ∈ (l.filter (fun e => !(ovPrefix.isPrefixOf e.getName))).filter
        (fun e => e.getName = k) :=
      List.mem_filter.mpr ⟨he, by simp [hke]⟩
    have hne : (l.filter (fun e => !(ovPrefix.isPrefixOf e.getName))).filter
        (fun e => e.getName = k) ≠ [] := List.ne_nil_of_mem hmemf
    obtain ⟨w, hw⟩ := Option.isSome_iff_exists.mp (List.getLast?_isSome.mpr hne)
    have hwmem : w ∈ l :=
      List.mem_of_mem_filter (List.mem_of_mem_filter (mem_of_getLast?_eq hw))
    unfold lastWithName at hkx
    rw [hw] at hkx
    simp only [Option.getD_some] at hkx
    exact ⟨w, hwmem, Or.inl hkx.symm⟩

theorem names_map_last (l : List BlkField)
    (hnd : (l.map BlkField.getName).Nodup) :
    (l.map BlkField.getName).map
      (fun k => (lastWithName k l).getD (specPassDefault k)) = l := by
  induction l with
  | nil => rfl
  | cons e t ih =>
    simp only [List.map_cons, List.nodup_cons] at hnd
    obtain ⟨hn1, hn2⟩ := hnd
    simp only [List.map_cons]
    have hhead : lastWithName e.getName (e :: t) = some e := by
      unfold lastWithName
      have hft : t.filter (fun x => x.getName = e.getName) = [] := by
        apply List.filter_eq_nil.mpr
        intro x hx
        simp only [decide_eq_true_eq]
        intro hxe
        exact hn1 (hxe ▸ List.mem_map_of_mem BlkField.getName hx)
      rw [List.filter_cons_of_pos (by simp), hft]
      rfl
    have htail : ∀ k ∈ t.map BlkField.getName,
        (lastWithName k (e :: t)).getD (specPassDefault k)
          = (lastWithName k t).getD (specPassDefault k) := by
      intro k hkt
      have hek : ¬(e.getName = k) := fun hx => hn1 (hx ▸ hkt)
      unfold lastWithName
      rw [List.filter_cons_of_neg (by simp [hek])]
    rw [hhead, List.map_congr_left htail, ih hn2]
    rfl

theorem spec_id (l : List BlkField)
    (hnd : (l.map BlkField.getName).Nodup)
    (hnp : ∀ e ∈ l, ovPrefix.isPrefixOf e.getName = false) :
    specApplyOverridesList l = l := by
  unfold specApplyOverridesList
  simp only
  have hkeeps : l.filter (fun e => !(ovPrefix.isPrefixOf e.getName)) = l :=
    List.filter_eq_self.mpr (fun e he => by simp [hnp e he])
  have hovs : l.filter (fun e => ovPrefix.isPrefixOf e.getName) = [] :=
    List.filter_eq_nil.mpr (fun e he => by simp [hnp e he])
  rw [hkeeps, hovs, dedupFirst_eq_self _ hnd]
  exact names_map_last l hnd

theorem applyOverridesList_good (cs : List BlkField) :
    ((applyOverridesList cs).map BlkField.getName).Nodup ∧
      ∀ e ∈ applyOverridesList cs, ovPrefix.isPrefixOf e.getName = false := by
  rw [applyOverridesList_eq_spec]
  constructor
  · rw [spec_names]
    exact dedupFirst_nodup _
  · intro e he
    have h1 : e.getName ∈ (specApplyOverridesList cs).map BlkField.getName :=
      List.mem_map_of_mem _ he
    rw [spec_names] at h1
    have h2 := (dedupFirst_mem _ _).mp h1
    obtain ⟨y, hy, hye⟩ := List.mem_map.mp h2
    have h3 := (List.mem_filter.mp hy).2
    rw [← hye]
    simpa using h3

/-- `apply_overrides` is idempotent. -/
theorem applyOverrides_idem_aux :
    ∀ t : BlkField, t.applyOverrides.applyOverrides = t.applyOverrides := by
  intro t
  refine BlkField.inductionOn
    (fun u => u.applyOverrides.applyOverrides = u.applyOverrides)
    (fun n v => rfl) (fun n cs => rfl) (fun n cs ih => ?_) t
  show (BlkField.Struct n (applyOverridesList (applyOverridesMap cs))).applyOverrides
      = BlkField.Struct n (applyOverridesList (applyOverridesMap cs))
  rw [applyOverridesMap_eq]
  show BlkField.Struct n (applyOverridesList
      (applyOverridesMap (applyOverridesList (cs.map BlkField.applyOverrides))))
    = BlkField.Struct n (applyOverridesList (cs.map BlkField.applyOverrides))
  rw [applyOverridesMap_eq]
  have hfix : ∀ x ∈ applyOverridesList (cs.map BlkField.applyOverrides),
      x.applyOverrides = x := by
    intro x hxL
    rw [applyOverridesList_eq_spec] at hxL
    obtain ⟨y, hy, hcase⟩ := spec_mem _ x hxL
    obtain ⟨c, hc, hcy⟩ := List.mem_map.mp hy
    rcases hcase with hxy | ⟨k, hxk⟩
    · rw [hxy, ← hcy, ih c hc]
    · rw [hxk, ← hcy, applyOverrides_setName, ih c hc]
  rw [List.map_congr_left hfix, List.map_id']
  have hgood := applyOverridesList_good (cs.map BlkField.applyOverrides)
  rw [applyOverridesList_eq_spec
    (applyOverridesList (cs.map BlkField.applyOverrides))]
  exact congrArg (BlkField.Struct n) (spec_id _ hgood.1 hgood.2)

/-! ### Lemmas for the merge pass -/

theorem filter_enumFrom_map_snd (P : BlkField → Bool) :
    ∀ (l : List BlkField) (n : Nat),
      ((l.enumFrom n).filter (fun p => P p.2)).map (fun p => p.2) = l.filter P := by
  intro l
  induction l with
  | nil => intro n; rfl
  | cons c t ih =>
    intro n
    simp only [List.enumFrom, List.filter_cons]
    by_cases h : P c <;> simp [h, ih]

theorem idxsFrom_cons (n : Nat) (c : BlkField) (t : List BlkField) (k : Bytes) :
    idxsFrom n (c :: t) k =
      if c.getName = k then n :: idxsFrom (n + 1) t k else idxsFrom (n + 1) t k := by
  unfold idxsFrom
  simp only [List.enumFrom, List.filter_cons]
  by_cases h : c.getName = k <;> simp [h]

theorem idxsOf_eq_idxsFrom (fields : List BlkField) (k : Bytes) :
    idxsOf fields k = idxsFrom 0 fields k := rfl

theorem grpOf_eq_enum (fields : List BlkField) (k : Bytes) :
    grpOf fields k =
      (fields.enum.filter (fun p => p.2.getName = k)).map (fun p => p.2) :=
  (filter_enumFrom_map_snd (fun e => decide (e.getName = k)) fields 0).symm

theorem idxsOf_length (fields : List BlkField) (k : Bytes) :
    (idxsOf fields k).length = (grpOf fields k).length := by
  unfold idxsOf
  rw [grpOf_eq_enum]
  simp

theorem gKeys_addIdx (m : List (Bytes × List Nat)) (k : Bytes) (i : Nat) :
    gKeys (addIdx m k i) = dedupStep (gKeys m) k := by
  induction m with
  | nil => simp [addIdx, gKeys, dedupStep]
  | cons g t ih =>
    by_cases h : g.1 = k
    · simp [addIdx, gKeys, dedupStep, h]
    · have h' : ¬(k = g.1) := fun hx => h hx.symm
      simp only [addIdx, if_neg h, gKeys, List.map_cons]
      have ih' : List.map (fun p => p.1) (addIdx t k i)
          = dedupStep (List.map (fun p => p.1) t) k := ih
      rw [ih']
      unfold dedupStep
      by_cases hmem : k ∈ List.map (fun p => p.1) t
      · simp [hmem, h']
      · simp [hmem, h']

theorem gLookup_addIdx (m : List (Bytes × List Nat)) (k : Bytes) (i : Nat)
    (k' : Bytes) :
    gLookup (addIdx m k i) k' =
      if k' = k then some ((gLookup m k).getD [] ++ [i]) else gLookup m k' := by
  induction m with
  | nil =>
    simp only [addIdx, gLookup]
    by_cases h : k' = k
    · simp [h]
    · have h' : ¬ k = k' := fun hx => h hx.symm
      simp [h, h']
  | cons g t ih =>
    by_cases hg : g.1 = k
    · simp only [addIdx, if_pos hg, gLookup]
      by_cases hgk : g.1 = k'
      · simp [hgk, (hgk.symm.trans hg : k' = k), hg]
      · have hk : ¬ k' = k := fun hx => hgk (hg.trans hx.symm)
        simp [hgk, hk]
    · simp only [addIdx, if_neg hg, gLookup, ih]
      by_cases hgk : g.1 = k' <;> by_cases hk : k' = k
      · exact absurd (hgk.trans hk) hg
      · simp [hgk, hk]
      · simp [hgk, hk, hg]
      · simp [hgk, hk]

theorem keys_collect_go (l : List BlkField) :
    ∀ (n : Nat) (m : List (Bytes × List Nat)),
      gKeys ((l.enumFrom n).foldl (fun m p => addIdx m p.2.getName p.1) m)
        = (l.map BlkField.getName).foldl dedupStep (gKeys m) := by
  induction l with
  | nil => intro n m; rfl
  | cons c t ih =>
    intro n m
    simp only [List.enumFrom, List.foldl_cons, List.map_cons]
    rw [ih, gKeys_addIdx]

theorem lookup_collect_go (l : List BlkField) :
    ∀ (n : Nat) (m : List (Bytes × List Nat)) (k : Bytes),
      gLookup ((l.enumFrom n).foldl (fun m p => addIdx m p.2.getName p.1) m) k
        = match gLookup m k with
          | some is => some (is ++ idxsFrom n l k)
          | none => if idxsFrom n l k = [] then none else some (idxsFrom n l k) := by
  induction l with
  | nil =>
    intro n m k
    have h0 : idxsFrom n [] k = [] := rfl
    rw [h0]
    cases hm : gLookup m k <;> simp [hm]
  | cons c t ih =>
    intro n m k
    simp only [List.enumFrom, List.foldl_cons]
    rw [ih, gLookup_addIdx, idxsFrom_cons]
    by_cases hc : c.getName = k
    · rw [if_pos hc, hc]
      simp only [if_pos rfl]
      cases hm : gLookup m k <;> simp [hm]
    · have hkc : ¬(k = c.getName) := fun hx => hc hx.symm
      rw [if_neg hc, if_neg hkc]

theorem g_canonical (m : List (Bytes × List Nat)) (h : (gKeys m).Nodup) :
    m = (gKeys m).map (fun k => (k, (gLookup m k).getD [])) := by
  induction m with
  | nil => rfl
  | cons g t ih =>
    have hg : g.1 ∉ gKeys t := by
      simp only [gKeys, List.map_cons, List.nodup_cons] at h
      exact h.1
    have ht : (gKeys t).Nodup := by
      simp only [gKeys, List.map_cons, List.nodup_cons] at h
      exact h.2
    show g :: t = (g.1 :: gKeys t).map (fun k => (k, (gLookup (g :: t) k).getD []))
    rw [List.map_cons]
    have h1 : gLookup (g :: t) g.1 = some g.2 := by simp [gLookup]
    have hcong : ∀ k ∈ gKeys t,
        (k, (gLookup (g :: t) k).getD []) = (k, (gLookup t k).getD []) := by
      intro k hk
      have hne : ¬(g.1 = k) := fun hx => hg (hx ▸ hk)
      simp [gLookup, hne]
    rw [List.map_congr_left hcong, h1]
    exact congrArg₂ (· :: ·) rfl (ih ht)

theorem mem_names_of_idxs_ne (fields : List BlkField) (k : Bytes)
    (h : k ∈ fields.map BlkField.getName) : idxsOf fields k ≠ [] := by
  intro hnil
  obtain ⟨e, he, hke⟩ := List.mem_map.mp h
  have : e ∈ grpOf fields k := List.mem_filter.mpr ⟨he, by simp [hke]⟩
  have hlen : 0 < (grpOf fields k).length := List.length_pos.mpr (List.ne_nil_of_mem this)
  rw [← idxsOf_length, hnil] at hlen
  simp at hlen

theorem collectGroups_canonical (fields : List BlkField) :
    collectGroups fields =
      (dedupFirst (fields.map BlkField.getName)).map
        (fun k => (k, idxsOf fields k)) := by
  have hkeys : gKeys (collectGroups fields)
      = dedupFirst (fields.map BlkField.getName) := by
    unfold collectGroups dedupFirst
    exact keys_collect_go fields 0 []
  have hnd : (gKeys (collectGroups fields)).Nodup := by
    rw [hkeys]
    exact dedupFirst_nodup _
  have hcanon := g_canonical (collectGroups fields) hnd
  rw [hcanon, hkeys]
  apply List.map_congr_left
  intro k hk
  have hkn : k ∈ fields.map BlkField.getName := (dedupFirst_mem _ _).mp hk
  have hlook : gLookup (collectGroups fields) k = some (idxsOf fields k) := by
    have h1 := lookup_collect_go fields 0 [] k
    have h2 : fields.enumFrom 0 = fields.enum := rfl
    rw [h2] at h1
    unfold collectGroups
    rw [h1]
    have hnil : gLookup ([] : List (Bytes × List Nat)) k = none := rfl
    rw [hnil]
    simp only [← idxsOf_eq_idxsFrom]
    rw [if_neg (mem_names_of_idxs_ne fields k hkn)]
  rw [hlook]
  rfl

theorem lt_of_get?_eq_some {α : Type} {l : List α} {n : Nat} {a : α}
    (h : l.get? n = some a) : n < l.length := by
  by_contra hc
  push_neg at hc
  rw [List.get?_eq_none.mpr hc] at h
  cases h

theorem headD_mem {α : Type} {l : List α} (d : α) (h : l ≠ []) : l.headD d ∈ l := by
  cases l with
  | nil => exact absurd rfl h
  | cons a t => exact List.mem_cons_self a t

theorem enum_get? (l : List BlkField) (i : Nat) :
    l.enum.get? i = (l.get? i).map (fun a => (i, a)) := by
  have := List.enumFrom_get? 0 l i
  simpa using this

theorem mem_enumFrom_get? :
    ∀ (l : List BlkField) (n : Nat) (p : Nat × BlkField),
      p ∈ l.enumFrom n → n ≤ p.1 ∧ l.get? (p.1 - n) = some p.2 := by
  intro l
  induction l with
  | nil => intro n p hp; simp [List.enumFrom] at hp
  | cons c t ih =>
    intro n p hp
    simp only [List.enumFrom, List.mem_cons] at hp
    rcases hp with hp | hp
    · subst hp
      simp
    · obtain ⟨h1, h2⟩ := ih (n + 1) p hp
      refine ⟨by omega, ?_⟩
      have h3 : p.1 - n = (p.1 - (n + 1)) + 1 := by omega
      rw [h3]
      simpa using h2

theorem mem_enum_get? (l : List BlkField) (p : Nat × BlkField)
    (hp : p ∈ l.enum) : l.get? p.1 = some p.2 := by
  have := (mem_enumFrom_get? l 0 p hp).2
  simpa using this

theorem mem_idxsOf (fields : List BlkField) (k : Bytes) (i : Nat) :
    i ∈ idxsOf fields k ↔ ∃ f, fields.get? i = some f ∧ f.getName = k := by
  unfold idxsOf
  constructor
  · intro h
    obtain ⟨p, hp, hpi⟩ := List.mem_map.mp h
    have hpf := List.mem_filter.mp hp
    have hname : p.2.getName = k := by simpa using hpf.2
    refine ⟨p.2, ?_, hname⟩
    rw [← hpi]
    exact mem_enum_get? fields p hpf.1
  · rintro ⟨f, hf, hk⟩
    have henum : fields.enum.get? i = some (i, f) := by
      rw [enum_get?, hf]
      rfl
    have hmem : (i, f) ∈ fields.enum := List.get?_mem henum
    exact List.mem_map.mpr ⟨(i, f), List.mem_filter.mpr ⟨hmem, by simp [hk]⟩, rfl⟩

theorem idxsOf_nodup (fields : List BlkField) (k : Bytes) :
    (idxsOf fields k).Nodup := by
  unfold idxsOf
  have h1 : ((fields.enum.filter (fun p => p.2.getName = k)).map
      (fun p : Nat × BlkField => p.1)).Sublist (fields.enum.map
        (fun p : Nat × BlkField => p.1)) :=
    List.Sublist.map _ (List.filter_sublist _)
  apply h1.nodup
  have h2 : fields.enum.map (fun p : Nat × BlkField => p.1)
      = fields.enum.map Prod.fst := rfl
  rw [h2, List.enum_map_fst]
  exact List.nodup_range _

theorem idxsOf_map_getD (fields : List BlkField) (k : Bytes) :
    (idxsOf fields k).map (fun e => (fields.get? e).getD dummyField)
      = grpOf fields k := by
  unfold idxsOf
  rw [List.map_map, grpOf_eq_enum]
  apply List.map_congr_left
  intro p hp
  have hpf := List.mem_filter.mp hp
  have h1 := mem_enum_get? fields p hpf.1
  have h2 : fields[p.1]? = some p.2 := by
    rw [← List.get?_eq_getElem?]
    exact h1
  simp [Function.comp, h2]

theorem takeFold_spec (idxs : List Nat) :
    ∀ (old : List (Option BlkField)) (accL : List BlkField), idxs.Nodup →
      (idxs.foldl takeStep (old, accL)).1 = setNoneAll old idxs ∧
      (idxs.foldl takeStep (old, accL)).2
        = accL ++ idxs.map (fun e => ((old.get? e).join).getD dummyField) := by
  induction idxs with
  | nil => intro old accL _; exact ⟨rfl, by simp⟩
  | cons e rest ih =>
    intro old accL hnd
    rw [List.nodup_cons] at hnd
    obtain ⟨he, hrest⟩ := hnd
    simp only [List.foldl_cons]
    obtain ⟨h1, h2⟩ := ih (old.set e none)
      (accL ++ [((old.get? e).join).getD dummyField]) hrest
    constructor
    · rw [show takeStep (old, accL) e
          = (old.set e none, accL ++ [((old.get? e).join).getD dummyField]) from rfl, h1]
      rfl
    · rw [show takeStep (old, accL) e
          = (old.set e none, accL ++ [((old.get? e).join).getD dummyField]) from rfl, h2]
      have hcong : ∀ e2 ∈ rest,
          (((old.set e none).get? e2).join).getD dummyField
            = ((old.get? e2).join).getD dummyField := by
        intro e2 he2
        have hne : e ≠ e2 := fun hx => he (hx ▸ he2)
        rw [List.get?_set_ne none old hne]
      rw [List.map_congr_left hcong]
      simp

theorem setNoneAll_length (idxs : List Nat) :
    ∀ (old : List (Option BlkField)), (setNoneAll old idxs).length = old.length := by
  induction idxs with
  | nil => intro old; rfl
  | cons e rest ih =>
    intro old
    rw [show setNoneAll old (e :: rest) = setNoneAll (old.set e none) rest from rfl,
      ih, List.length_set]

theorem setNoneAll_get? (idxs : List Nat) :
    ∀ (old : List (Option BlkField)) (i : Nat),
      (setNoneAll old idxs).get? i =
        if i ∈ idxs then (if i < old.length then some none else none)
        else old.get? i := by
  induction idxs with
  | nil => intro old i; simp [setNoneAll]
  | cons e rest ih =>
    intro old i
    rw [show setNoneAll old (e :: rest) = setNoneAll (old.set e none) rest from rfl, ih]
    by_cases hir : i ∈ rest
    · simp [hir, List.length_set]
    · by_cases hie : i = e
      · subst hie
        by_cases hel : i < old.length
        · rw [List.get?_set_eq_of_lt none hel]
          simp [hir, hel]
        · have hlen : old.length ≤ i := by omega
          have : (old.set i none).get? i = none :=
            List.get?_eq_none.mpr (by rw [List.length_set]; exact hlen)
          rw [this]
          simp [hir, hel]
      · have hne : e ≠ i := fun hx => hie hx.symm
        rw [List.get?_set_ne none old hne]
        simp [hir, hie]

theorem mergeGroupStep_spec (fields : List BlkField) (ks : List Bytes) (k : Bytes)
    (hk : k ∉ ks) (hgrp : 1 < (idxsOf fields k).length) :
    mergeGroupStep (fields.enum.map (partialMergeFn fields ks)) (k, idxsOf fields k)
      = fields.enum.map (partialMergeFn fields (ks ++ [k])) := by
  set old := fields.enum.map (partialMergeFn fields ks) with hold
  have hold_length : old.length = fields.length := by
    rw [hold, List.length_map, List.enum_length]
  have hold_get : ∀ i, old.get? i
      = (fields.get? i).map (fun f => partialMergeFn fields ks (i, f)) := by
    intro i
    rw [hold, List.get?_map, enum_get?, Option.map_map]
    rfl
  have hidx_ne : idxsOf fields k ≠ [] := by
    intro h
    rw [h] at hgrp
    simp at hgrp
  have hread : ∀ e ∈ idxsOf fields k,
      ((old.get? e).join).getD dummyField = (fields.get? e).getD dummyField := by
    intro e he
    obtain ⟨f, hf, hfk⟩ := (mem_idxsOf fields k e).mp he
    have hpf : partialMergeFn fields ks (e, f) = some f := by
      unfold partialMergeFn
      rw [if_neg (by simpa [hfk] using hk)]
    rw [hold_get e, hf]
    simp [hpf]
  show ((idxsOf fields k).foldl takeStep (old, [])).1.set ((idxsOf fields k).headD 0)
      (some (.Merged k ((idxsOf fields k).foldl takeStep (old, [])).2))
    = fields.enum.map (partialMergeFn fields (ks ++ [k]))
  obtain ⟨h1, h2⟩ := takeFold_spec (idxsOf fields k) old [] (idxsOf_nodup fields k)
  have hvals : ((idxsOf fields k).foldl takeStep (old, [])).2 = grpOf fields k := by
    rw [h2, List.nil_append, List.map_congr_left hread, idxsOf_map_getD]
  rw [h1, hvals]
  apply List.ext_get?
  intro i
  have hrhs : (fields.enum.map (partialMergeFn fields (ks ++ [k]))).get? i
      = (fields.get? i).map (fun f => partialMergeFn fields (ks ++ [k]) (i, f)) := by
    rw [List.get?_map, enum_get?, Option.map_map]
    rfl
  cases hfi : fields.get? i with
  | none =>
    have hlen_i : fields.length ≤ i := List.get?_eq_none.mp hfi
    rw [hrhs, hfi]
    apply List.get?_eq_none.mpr
    rw [List.length_set, setNoneAll_length, hold_length]
    exact hlen_i
  | some f =>
    have hlt : i < fields.length := lt_of_get?_eq_some hfi
    rw [hrhs, hfi]
    simp only [Option.map_some']
    have hh0mem : (idxsOf fields k).headD 0 ∈ idxsOf fields k := headD_mem 0 hidx_ne
    by_cases hname : f.getName = k
    · have himem : i ∈ idxsOf fields k := (mem_idxsOf _ _ _).mpr ⟨f, hfi, hname⟩
      by_cases hh0 : i = (idxsOf fields k).headD 0
      · have hlt2 : (idxsOf fields k).headD 0
            < (setNoneAll old (idxsOf fields k)).length := by
          rw [setNoneAll_length, hold_length, ← hh0]
          exact hlt
        rw [hh0, List.get?_set_eq_of_lt _ hlt2]
        have hval : partialMergeFn fields (ks ++ [k]) ((idxsOf fields k).headD 0, f)
            = some (.Merged k (grpOf fields k)) := by
          unfold partialMergeFn
          rw [if_pos (by simp [hname])]
          unfold specMergeFn
          have hg1 : ¬((grpOf fields ((((idxsOf fields k).headD 0), f)).2.getName).length
              ≤ 1) := by
            show ¬((grpOf fields f.getName).length ≤ 1)
            rw [hname, ← idxsOf_length]
            omega
          rw [if_neg hg1]
          have hcond : (idxsOf fields ((((idxsOf fields k).headD 0), f)).2.getName).headD 0
              = (((idxsOf fields k).headD 0), f).1 := by
            show (idxsOf fields f.getName).headD 0 = (idxsOf fields k).headD 0
            rw [hname]
          rw [if_pos hcond]
          show some (BlkField.Merged f.getName (grpOf fields f.getName)) = _
          rw [hname]
        rw [hval]
      · have hne : (idxsOf fields k).headD 0 ≠ i := fun hx => hh0 hx.symm
        rw [List.get?_set_ne _ _ hne, setNoneAll_get?, if_pos himem,
          if_pos (by rw [hold_length]; exact hlt)]
        have hval : partialMergeFn fields (ks ++ [k]) (i, f) = none := by
          unfold partialMergeFn
          rw [if_pos (by simp [hname])]
          unfold specMergeFn
          have hg1 : ¬((grpOf fields ((i, f)).2.getName).length ≤ 1) := by
            show ¬((grpOf fields f.getName).length ≤ 1)
            rw [hname, ← idxsOf_length]
            omega
          rw [if_neg hg1]
          have hcond : ¬((idxsOf fields ((i, f)).2.getName).headD 0 = (i, f).1) := by
            show ¬((idxsOf fields f.getName).headD 0 = i)
            rw [hname]
            exact hne
          rw [if_neg hcond]
        rw [hval]
    · have hnotmem : i ∉ idxsOf fields k := by
        intro hx
        obtain ⟨g, hg, hgk⟩ := (mem_idxsOf _ _ _).mp hx
        rw [hfi] at hg
        cases hg
        exact hname hgk
      have hneh0 : (idxsOf fields k).headD 0 ≠ i := by
        intro hx
        exact hnotmem (hx ▸ hh0mem)
      rw [List.get?_set_ne _ _ hneh0, setNoneAll_get?, if_neg hnotmem, hold_get, hfi]
      simp only [Option.map_some']
      unfold partialMergeFn
      by_cases hmk : f.getName ∈ ks
      · rw [if_pos hmk, if_pos (by simp [hmk])]
      · rw [if_neg hmk, if_neg (by simp [hmk, hname])]

theorem mergeFold_inv (fields : List BlkField) :
    ∀ (KS done : List Bytes), (done ++ KS).Nodup →
      (∀ k ∈ KS, 1 < (idxsOf fields k).length) →
      (KS.map (fun k => (k, idxsOf fields k))).foldl mergeGroupStep
          (fields.enum.map (partialMergeFn fields done))
        = fields.enum.map (partialMergeFn fields (done ++ KS)) := by
  intro KS
  induction KS with
  | nil => intro done _ _; simp
  | cons k rest ih =>
    intro done hnd hlen
    have hkdone : k ∉ done := by
      rw [List.nodup_append] at hnd
      exact fun hx => hnd.2.2 hx (List.mem_cons_self k rest)
    simp only [List.map_cons, List.foldl_cons]
    rw [mergeGroupStep_spec fields done k hkdone (hlen k (List.mem_cons_self k rest))]
    have hassoc : done ++ k :: rest = (done ++ [k]) ++ rest := by simp
    have hnd2 : ((done ++ [k]) ++ rest).Nodup := by rw [← hassoc]; exact hnd
    rw [ih (done ++ [k]) hnd2 (fun k2 hk2 => hlen k2 (List.mem_cons_of_mem k hk2)),
      ← hassoc]

theorem filterMap_congr_mem {α β : Type} (l : List α) (f g : α → Option β)
    (h : ∀ a ∈ l, f a = g a) : l.filterMap f = l.filterMap g := by
  induction l with
  | nil => rfl
  | cons a t ih =>
    rw [List.filterMap_cons, List.filterMap_cons, h a (List.mem_cons_self a t),
      ih (fun a2 ha2 => h a2 (List.mem_cons_of_mem a ha2))]

/-- The merge pass of the source (bucket collection plus take/merge loop)
computes exactly the declarative pass. -/
theorem mergePass_eq_spec (fields : List BlkField) :
    mergePass fields = specMergePass fields := by
  unfold mergePass
  simp only
  have hgroups : (collectGroups fields).filter (fun e => 1 < e.2.length)
      = ((dedupFirst (fields.map BlkField.getName)).filter
          (fun k => 1 < (idxsOf fields k).length)).map
            (fun k => (k, idxsOf fields k)) := by
    rw [collectGroups_canonical, List.filter_map]
    rfl
  have hold0 : fields.map some = fields.enum.map (partialMergeFn fields []) := by
    have h1 : ∀ p ∈ fields.enum, partialMergeFn fields [] p = some p.2 := by
      intro p _
      unfold partialMergeFn
      rw [if_neg (by simp)]
    rw [List.map_congr_left h1]
    have h2 : fields.enum.map (fun p => some p.2)
        = (fields.enum.map (fun p : Nat × BlkField => p.2)).map some := by
      rw [List.map_map]
      rfl
    rw [h2]
    have h3 : fields.enum.map (fun p : Nat × BlkField => p.2) = fields := by
      have := List.enum_map_snd fields
      simpa using this
    rw [h3]
  rw [hgroups, hold0]
  set bigKeys := (dedupFirst (fields.map BlkField.getName)).filter
    (fun k => 1 < (idxsOf fields k).length) with hbig
  have hnd : (([] : List Bytes) ++ bigKeys).Nodup := by
    simp only [List.nil_append, hbig]
    exact (dedupFirst_nodup _).filter _
  have hbiglen : ∀ k ∈ bigKeys, 1 < (idxsOf fields k).length := by
    intro k hkb
    have := (List.mem_filter.mp hkb).2
    simpa using this
  rw [mergeFold_inv fields bigKeys [] hnd hbiglen, List.nil_append]
  have hfm : (fields.enum.map (partialMergeFn fields bigKeys)).filterMap id
      = fields.enum.filterMap (partialMergeFn fields bigKeys) := by
    rw [List.filterMap_map]
    rfl
  rw [hfm]
  unfold specMergePass
  apply filterMap_congr_mem
  intro p hp
  unfold partialMergeFn
  by_cases hmem : p.2.getName ∈ bigKeys
  · rw [if_pos hmem]
  · rw [if_neg hmem]
    unfold specMergeFn
    have hnames : p.2.getName ∈ fields.map BlkField.getName := by
      have := mem_enum_get? fields p hp
      exact List.mem_map_of_mem _ (List.get?_mem this)
    have hle : (grpOf fields p.2.getName).length ≤ 1 := by
      by_contra hgt
      push_neg at hgt
      apply hmem
      rw [hbig]
      refine List.mem_filter.mpr ⟨(dedupFirst_mem _ _).mpr hnames, ?_⟩
      simp only [decide_eq_true_eq]
      rw [idxsOf_length]
      omega
    rw [if_pos hle]

/-! ### Uniqueness of sibling names after the merge pass -/

theorem countP_filterMap {α β : Type} (p : β → Bool) (fn : α → Option β)
    (l : List α) :
    (l.filterMap fn).countP p = l.countP (fun a => ((fn a).map p).getD false) := by
  induction l with
  | nil => rfl
  | cons a t ih =>
    rw [List.filterMap_cons]
    cases hfa : fn a with
    | none =>
      rw [List.countP_cons, ih]
      simp [hfa]
    | some b =>
      rw [List.countP_cons, List.countP_cons, ih]
      simp [hfa]

theorem countP_congr_mem {α : Type} (l : List α) (p q : α → Bool)
    (h : ∀ a ∈ l, p a = q a) : l.countP p = l.countP q := by
  induction l with
  | nil => rfl
  | cons b t ih =>
    simp only [List.countP_cons, h b (List.mem_cons_self b t),
      ih (fun a ha => h a (List.mem_cons_of_mem b ha))]

theorem countP_le_one_of_nodup {α : Type} [DecidableEq α] (l : List α)
    (hl : l.Nodup) (a : α) : l.countP (fun x => decide (x = a)) ≤ 1 := by
  induction l with
  | nil => simp
  | cons b t ih =>
    rw [List.nodup_cons] at hl
    rw [List.countP_cons]
    by_cases hb : b = a
    · subst hb
      have hz : t.countP (fun x => decide (x = b)) = 0 := by
        apply List.countP_eq_zero.mpr
        intro x hx
        simp only [decide_eq_true_eq]
        intro hxb
        exact hl.1 (hxb ▸ hx)
      simp [hz]
    · have := ih hl.2
      simp only [decide_eq_true_eq, hb, ite_false]
      omega

theorem nodup_of_countP_le_one {α : Type} [DecidableEq α] (l : List α)
    (h : ∀ a : α, l.countP (fun x => decide (x = a)) ≤ 1) : l.Nodup := by
  induction l with
  | nil => exact List.nodup_nil
  | cons a t ih =>
    rw [List.nodup_cons]
    constructor
    · intro hmem
      have h2 := h a
      rw [List.countP_cons] at h2
      have h3 : 0 < t.countP (fun x => decide (x = a)) :=
        List.countP_pos.mpr ⟨a, hmem, by simp⟩
      simp only [decide_eq_true_eq, ite_true] at h2
      omega
    · apply ih
      intro b
      have h2 := h b
      rw [List.countP_cons] at h2
      omega

theorem specMergeFn_name (fields : List BlkField) (p : Nat × BlkField)
    (o : BlkField) (h : specMergeFn fields p = some o) :
    o.getName = p.2.getName := by
  unfold specMergeFn at h
  by_cases h1 : (grpOf fields p.2.getName).length ≤ 1
  · rw [if_pos h1] at h
    cases h
    rfl
  · rw [if_neg h1] at h
    by_cases h2 : (idxsOf fields p.2.getName).headD 0 = p.1
    · rw [if_pos h2] at h
      cases h
      rfl
    · rw [if_neg h2] at h
      cases h

theorem spec_countP (fields : List BlkField) (k : Bytes) :
    (specMergePass fields).countP (fun e => e.getName = k) ≤ 1 := by
  unfold specMergePass
  rw [countP_filterMap]
  by_cases hbk : (grpOf fields k).length ≤ 1
  · have hmono : ∀ p ∈ fields.enum,
        (((specMergeFn fields p).map (fun e => decide (e.getName = k))).getD false
          = true) → (decide (p.2.getName = k) = true) := by
      intro p _ hq
      cases hsf : specMergeFn fields p with
      | none => rw [hsf] at hq; cases hq
      | some o =>
        rw [hsf] at hq
        simp only [Option.map_some', Option.getD_some, decide_eq_true_eq] at hq
        have := specMergeFn_name fields p o hsf
        simp [← this, hq]
    calc fields.enum.countP
          (fun p => ((specMergeFn fields p).map (fun e => decide (e.getName = k))).getD false)
        ≤ fields.enum.countP (fun p => decide (p.2.getName = k)) :=
          List.countP_mono_left hmono
      _ = (fields.enum.filter (fun p => p.2.getName = k)).length :=
          (List.countP_eq_length_filter _ _)
      _ = (grpOf fields k).length := by
          rw [grpOf_eq_enum]
          simp
      _ ≤ 1 := hbk
  · push_neg at hbk
    have hmono : ∀ p ∈ fields.enum,
        (((specMergeFn fields p).map (fun e => decide (e.getName = k))).getD false
          = true) → (decide (p.1 = (idxsOf fields k).headD 0) = true) := by
      intro p _ hq
      cases hsf : specMergeFn fields p with
      | none => rw [hsf] at hq; cases hq
      | some o =>
        rw [hsf] at hq
        simp only [Option.map_some', Option.getD_some, decide_eq_true_eq] at hq
        have hop := specMergeFn_name fields p o hsf
        have hpk : p.2.getName = k := hop ▸ hq
        unfold specMergeFn at hsf
        rw [hpk] at hsf
        rw [if_neg (by omega)] at hsf
        by_cases h2 : (idxsOf fields k).headD 0 = p.1
        · simp [h2.symm]
        · rw [if_neg h2] at hsf
          cases hsf
    calc fields.enum.countP
          (fun p => ((specMergeFn fields p).map (fun e => decide (e.getName = k))).getD false)
        ≤ fields.enum.countP (fun p => decide (p.1 = (idxsOf fields k).headD 0)) :=
          List.countP_mono_left hmono
      _ = (fields.enum.map (fun p : Nat × BlkField => p.1)).countP
            (fun x => decide (x = (idxsOf fields k).headD 0)) := by
          rw [List.countP_map]
          rfl
      _ = (List.range fields.length).countP
            (fun x => decide (x = (idxsOf fields k).headD 0)) := by
          have h2 : fields.enum.map (fun p : Nat × BlkField => p.1)
              = fields.enum.map Prod.fst := rfl
          rw [h2, List.enum_map_fst]
      _ ≤ 1 :=
          countP_le_one_of_nodup _ (List.nodup_range _) _

theorem specMergePass_names_nodup (fields : List BlkField) :
    ((specMergePass fields).map BlkField.getName).Nodup := by
  apply nodup_of_countP_le_one
  intro a
  have h1 : ((specMergePass fields).map BlkField.getName).countP
      (fun x => decide (x = a))
      = (specMergePass fields).countP (fun e => decide (e.getName = a)) := by
    rw [List.countP_map]
    rfl
  rw [h1]
  exact spec_countP fields a

theorem distinctB_iff (l : List Bytes) : distinctB l = true ↔ l.Nodup := by
  induction l with
  | nil => simp [distinctB]
  | cons a t ih =>
    by_cases h : a ∈ t <;> simp [distinctB, h, ih]

theorem noMergedList_iff (cs : List BlkField) :
    noMergedList cs = true ↔ ∀ c ∈ cs, c.noMerged = true := by
  induction cs with
  | nil => simp [noMergedList]
  | cons c t ih => simp [noMergedList, ih]

theorem structNamesUniqueList_iff (cs : List BlkField) :
    structNamesUniqueList cs = true ↔ ∀ c ∈ cs, c.structNamesUnique = true := by
  induction cs with
  | nil => simp [structNamesUniqueList]
  | cons c t ih => simp [structNamesUniqueList, ih]

theorem mem_specMergePass (fields : List BlkField) (x : BlkField)
    (hx : x ∈ specMergePass fields) :
    x ∈ fields ∨ ∃ k, x = .Merged k (grpOf fields k) := by
  unfold specMergePass at hx
  obtain ⟨p, hp, hfp⟩ := List.mem_filterMap.mp hx
  have hmem : p.2 ∈ fields := List.get?_mem (mem_enum_get? fields p hp)
  revert hfp
  unfold specMergeFn
  by_cases h1 : (grpOf fields p.2.getName).length ≤ 1
  · rw [if_pos h1]
    intro h
    cases h
    exact Or.inl hmem
  · rw [if_neg h1]
    by_cases h2 : (idxsOf fields p.2.getName).headD 0 = p.1
    · rw [if_pos h2]
      intro h
      cases h
      exact Or.inr ⟨p.2.getName, rfl⟩
    · rw [if_neg h2]
      intro h
      cases h

/-- After `merge_fields`, no two siblings of any `Struct` share a name
(for `Merged`-free inputs, i.e. every parse result). -/
theorem mergeFields_structNamesUnique :
    ∀ t : BlkField, t.noMerged = true →
      (t.mergeFields).structNamesUnique = true := by
  intro t
  refine BlkField.inductionOn
    (fun u => u.noMerged = true → (u.mergeFields).structNamesUnique = true)
    (fun n v _ => rfl) (fun n cs h => by cases h) (fun n cs ih hnm => ?_) t
  have hnm_cs : ∀ c ∈ cs, c.noMerged = true := by
    have h0 : noMergedList cs = true := hnm
    exact (noMergedList_iff cs).mp h0
  show (BlkField.Struct n (mergePass (mergeFieldsMap cs))).structNamesUnique = true
  rw [mergeFieldsMap_eq]
  show (distinctB ((mergePass (cs.map BlkField.mergeFields)).map BlkField.getName)
    && structNamesUniqueList (mergePass (cs.map BlkField.mergeFields))) = true
  rw [Bool.and_eq_true]
  constructor
  · rw [distinctB_iff, mergePass_eq_spec]
    exact specMergePass_names_nodup _
  · rw [structNamesUniqueList_iff]
    intro x hx
    rw [mergePass_eq_spec] at hx
    rcases mem_specMergePass _ x hx with hmem | ⟨k, hk⟩
    · obtain ⟨c, hc, hcx⟩ := List.mem_map.mp hmem
      rw [← hcx]
      exact ih c hc (hnm_cs c hc)
    · rw [hk]
      show structNamesUniqueList (grpOf (cs.map BlkField.mergeFields) k) = true
      rw [structNamesUniqueList_iff]
      intro g hg
      have hgm : g ∈ cs.map BlkField.mergeFields := List.mem_of_mem_filter hg
      obtain ⟨c, hc, hcg⟩ := List.mem_map.mp hgm
      rw [← hcg]
      exact ih c hc (hnm_cs c hc)

/-! ### Fuel stability of the JSON emitter -/

theorem asSerde_mono : ∀ (n m : Nat), n ≤ m →
    (∀ so t j, asSerdeObjF n so t = some j → asSerdeObjF m so t = some j) ∧
    (∀ so t p, asSerdeJsonF n so t = some p → asSerdeJsonF m so t = some p) ∧
    (∀ so l ps, asSerdeJsonMapF n so l = some ps → asSerdeJsonMapF m so l = some ps) ∧
    (∀ so l js, asSerdeObjMapF n so l = some js → asSerdeObjMapF m so l = some js) := by
  intro n
  induction n with
  | zero =>
    intro m _
    refine ⟨?_, ?_, ?_, ?_⟩
    · intro so t j h; cases h
    · intro so t p h; cases h
    · intro so l ps h; cases h
    · intro so l js h; cases h
  | succ n ih =>
    intro m hm
    obtain ⟨m', rfl⟩ : ∃ m2, m = m2 + 1 := ⟨m - 1, by omega⟩
    have hm' : n ≤ m' := by omega
    obtain ⟨IH1, IH2, IH3, IH4⟩ := ih m' hm'
    refine ⟨?_, ?_, ?_, ?_⟩
    · intro so t j h
      simp only [asSerdeObjF] at h ⊢
      cases hp : asSerdeJsonF n so
          (if so then (t.mergeFields).applyOverrides else t.mergeFields) with
      | none => rw [hp] at h; cases h
      | some p =>
        rw [hp] at h
        rw [IH2 so _ p hp]
        exact h
    · intro so t p h
      cases t with
      | Value k v => exact h
      | Struct k cs =>
        simp only [asSerdeJsonF] at h ⊢
        cases hm2 : asSerdeJsonMapF n so cs with
        | none => rw [hm2] at h; cases h
        | some ps =>
          rw [hm2] at h
          rw [IH3 so cs ps hm2]
          exact h
      | Merged k cs =>
        simp only [asSerdeJsonF] at h ⊢
        cases hm2 : asSerdeObjMapF n so cs with
        | none => rw [hm2] at h; cases h
        | some js =>
          rw [hm2] at h
          rw [IH4 so cs js hm2]
          exact h
    · intro so l ps h
      cases l with
      | nil => exact h
      | cons c t2 =>
        simp only [asSerdeJsonMapF] at h ⊢
        cases h1 : asSerdeJsonF n so c with
        | none => rw [h1] at h; cases h
        | some p1 =>
          rw [h1] at h
          cases h2 : asSerdeJsonMapF n so t2 with
          | none => rw [h2] at h; cases h
          | some ps2 =>
            rw [h2] at h
            rw [IH2 so c p1 h1, IH3 so t2 ps2 h2]
            exact h
    · intro so l js h
      cases l with
      | nil => exact h
      | cons c t2 =>
        simp only [asSerdeObjMapF] at h ⊢
        cases h1 : asSerdeObjF n so c with
        | none => rw [h1] at h; cases h
        | some j1 =>
          rw [h1] at h
          cases h2 : asSerdeObjMapF n so t2 with
          | none => rw [h2] at h; cases h
          | some js2 =>
            rw [h2] at h
            rw [IH1 so c j1 h1, IH4 so t2 js2 h2]
            exact h

/-! ### Helper lemmas for the VROMF outer container -/

theorem sliceGet_eq {α : Type} {l : List α} {a b : Nat} {s : List α}
    (h : sliceGet l a b = some s) : s = (l.drop a).take (b - a) := by
  unfold sliceGet at h
  by_cases hc : a ≤ b ∧ b ≤ l.length
  · rw [if_pos hc] at h
    injection h with h
    exact h.symm
  · rw [if_neg hc] at h
    cases h

theorem vromfInnerData_spec (ht : HeaderType) (plat : Nat) (pt : PackType)
    (ehs size : Nat) (file : Bytes) (md : Metadata) (inner : Bytes)
    (h : vromfInnerData ht plat pt ehs size file = .ok (md, inner)) :
    md.packing = some pt ∧ ∃ a b, inner = (file.drop a).take b := by
  unfold vromfInnerData at h
  by_cases he : ht.isExtended = true
  · rw [if_pos he] at h
    cases h16 : sliceGet file 16 24 with
    | none => simp only [h16] at h; cases h
    | some s =>
      simp only [h16] at h
      by_cases hz : ehs = 0
      · rw [if_pos hz] at h
        injection h with h
        injection h with h1 h2
        refine ⟨by rw [← h1], 24, (file.drop 24).length, ?_⟩
        rw [← h2, List.take_length]
      · rw [if_neg hz] at h
        cases h24 : sliceGet file 24 (24 + ehs) with
        | none => simp only [h24] at h; cases h
        | some inner2 =>
          simp only [h24] at h
          injection h with h
          injection h with h1 h2
          exact ⟨by rw [← h1], 24, 24 + ehs - 24, by rw [← h2, sliceGet_eq h24]⟩
  · rw [if_neg he] at h
    by_cases hcomp : pt.isCompressed = true
    · rw [if_pos hcomp] at h
      cases h16 : sliceGet file 16 (16 + ehs) with
      | none => simp only [h16] at h; cases h
      | some inner2 =>
        simp only [h16] at h
        injection h with h
        injection h with h1 h2
        exact ⟨by rw [← h1], 16, 16 + ehs - 16, by rw [← h2, sliceGet_eq h16]⟩
    · rw [if_neg hcomp] at h
      cases h16 : sliceGet file 16 (16 + size) with
      | none => simp only [h16] at h; cases h
      | some inner2 =>
        simp only [h16] at h
        injection h with h
        injection h with h1 h2
        exact ⟨by rw [← h1], 16, 16 + size - 16, by rw [← h2, sliceGet_eq h16]⟩

theorem decode_header_spec (hdrOf : Nat → Except String HeaderType)
    (platOf : Nat → Except String Nat)
    (packOf : Nat → Except String (PackType × Nat))
    (file : Bytes) (pt : PackType) (md : Metadata) (inner : Bytes)
    (h : decode_bin_vromf_header hdrOf platOf packOf file = .ok (pt, md, inner)) :
    md.packing = some pt ∧ ∃ a b, inner = (file.drop a).take b := by
  unfold decode_bin_vromf_header at h
  cases h0 : sliceGet file 0 4 with
  | none => simp only [h0] at h; cases h
  | some hB =>
    simp only [h0] at h
    cases h1 : hdrOf (leNat hB) with
    | error e => simp only [h1] at h; cases h
    | ok ht =>
      simp only [h1] at h
      cases h2 : sliceGet file 4 8 with
      | none => simp only [h2] at h; cases h
      | some pB =>
        simp only [h2] at h
        cases h3 : platOf (leNat pB) with
        | error e => simp only [h3] at h; cases h
        | ok plat =>
          simp only [h3] at h
          cases h4 : sliceGet file 8 12 with
          | none => simp only [h4] at h; cases h
          | some sB =>
            simp only [h4] at h
            cases h5 : sliceGet file 12 16 with
            | none => simp only [h5] at h; cases h
            | some hpB =>
              simp only [h5] at h
              cases h6 : packOf (leNat hpB) with
              | error e => simp only [h6] at h; cases h
              | ok packed =>
                simp only [h6] at h
                cases h7 : vromfInnerData ht plat packed.1 packed.2 (leNat sB) file with
                | error e => simp only [h7] at h; cases h
                | ok pr =>
                  obtain ⟨md0, inner0⟩ := pr
                  simp only [h7] at h
                  injection h with h
                  injection h with ha hb
                  injection hb with hb1 hb2
                  have hspec := vromfInnerData_spec ht plat packed.1 packed.2
                    (leNat sB) file md0 inner0 h7
                  rw [← ha, ← hb1, ← hb2]
                  exact hspec

/-! ### Helper lemmas for the unpacker façade -/

theorem unpackFileEntry_pass (zstd : Bytes → Option Bytes → Except String Bytes)
    (parse : Bytes → Bool → Option NameMap → Except String BlkField)
    (jsonR : FormattingConfiguration → BlkField → Except String Bytes)
    (textR : BlkField → Except String Bytes)
    (dict : Option Bytes) (nm : Option NameMap) (fmt : Option BlkOutputFormat)
    (f : VFile) (h : maybe_blk f = false) :
    unpackFileEntry zstd parse jsonR textR dict nm fmt f = .ok f.contents := by
  unfold unpackFileEntry
  rw [h]
  rfl

theorem parseThenRender_no_crash
    (parse : Bytes → Bool → Option NameMap → Except String BlkField)
    (jsonR : FormattingConfiguration → BlkField → Except String Bytes)
    (textR : BlkField → Except String Bytes) (format : BlkOutputFormat)
    (nm : Option NameMap) (slim : Bool) (input : Bytes) (m : String) :
    parseThenRender parse jsonR textR format nm slim input ≠ .crash m := by
  intro hc
  unfold parseThenRender at hc
  cases hp : parse input slim nm with
  | error e => rw [hp] at hc; cases hc
  | ok t =>
    simp only [hp] at hc
    cases hb : blkContinue jsonR textR format t with
    | error e => rw [hb] at hc; cases hc
    | ok bs => rw [hb] at hc; cases hc

theorem unpackFileEntry_no_crash (zstd : Bytes → Option Bytes → Except String Bytes)
    (parse : Bytes → Bool → Option NameMap → Except String BlkField)
    (jsonR : FormattingConfiguration → BlkField → Except String Bytes)
    (textR : BlkField → Except String Bytes)
    (dict : Option Bytes) (nm : Option NameMap) (fmt : Option BlkOutputFormat)
    (f : VFile) (m : String) :
    unpackFileEntry zstd parse jsonR textR dict nm fmt f ≠ .crash m := by
  intro hc
  unfold unpackFileEntry at hc
  by_cases hb : maybe_blk f = true
  · rw [if_pos hb] at hc
    cases fmt with
    | none => cases hc
    | some format =>
      cases hc0 : f.contents with
      | nil =>
        unfold maybe_blk at hb
        rw [hc0] at hb
        simp at hb
      | cons b0 rest =>
        simp only [hc0] at hc
        cases hf : FileType.fromByte b0 with
        | error e => simp only [hf] at hc; cases hc
        | ok ft =>
          simp only [hf] at hc
          cases hz : ft.isZstd with
          | false =>
            simp [hz] at hc
            exact absurd hc (parseThenRender_no_crash _ _ _ _ _ _ _ _)
          | true =>
            simp only [hz, if_true, eq_self_iff_true] at hc
            cases hd : decode_zstd_auto zstd (b0 :: rest) dict with
            | error e => simp only [hd, Except.map] at hc; cases hc
            | ok D =>
              simp only [hd, Except.map] at hc
              exact absurd hc (parseThenRender_no_crash _ _ _ _ _ _ _ _)
  · rw [if_neg hb] at hc
    cases hc

theorem unpack_all_spec (zstd : Bytes → Option Bytes → Except String Bytes)
    (parse : Bytes → Bool → Option NameMap → Except String BlkField)
    (jsonR : FormattingConfiguration → BlkField → Except String Bytes)
    (textR : BlkField → Except String Bytes)
    (dict : Option Bytes) (nm : Option NameMap) (fmt : Option BlkOutputFormat) :
    ∀ (files : List VFile) (out : List Bytes),
      unpack_all zstd parse jsonR textR dict nm fmt files = .ok out →
      out.length = files.length ∧
        ∀ (i : Nat) (f : VFile), files.get? i = some f → maybe_blk f = false →
          out.get? i = some f.contents := by
  intro files
  induction files with
  | nil =>
    intro out h
    injection h with h
    subst h
    refine ⟨rfl, ?_⟩
    intro i f hf hmb
    cases i <;> cases hf
  | cons f0 t ih =>
    intro out h
    simp only [unpack_all] at h
    cases h0 : unpackFileEntry zstd parse jsonR textR dict nm fmt f0 with
    | ok bs =>
      simp only [h0] at h
      cases h1 : unpack_all zstd parse jsonR textR dict nm fmt t with
      | ok rest =>
        simp only [h1] at h
        injection h with h
        subst h
        obtain ⟨ihl, ihg⟩ := ih rest h1
        refine ⟨by simp [ihl], ?_⟩
        intro i f hf hmb
        cases i with
        | zero =>
          injection hf with hf
          subst hf
          have hpass := unpackFileEntry_pass zstd parse jsonR textR dict nm fmt f0 hmb
          rw [h0] at hpass
          injection hpass with hpass
          show some bs = some f0.contents
          rw [hpass]
        | succ j => exact ihg j f hf hmb
      | err e => simp only [h1] at h; cases h
      | crash m2 => simp only [h1] at h; cases h
    | err e => simp only [h0] at h; cases h
    | crash m2 => simp only [h0] at h; cases h

theorem unpack_all_no_crash (zstd : Bytes → Option Bytes → Except String Bytes)
    (parse : Bytes → Bool → Option NameMap → Except String BlkField)
    (jsonR : FormattingConfiguration → BlkField → Except String Bytes)
    (textR : BlkField → Except String Bytes)
    (dict : Option Bytes) (nm : Option NameMap) (fmt : Option BlkOutputFormat) :
    ∀ (files : List VFile) (m : String),
      unpack_all zstd parse jsonR textR dict nm fmt files ≠ .crash m := by
  intro files
  induction files with
  | nil => intro m hc; cases hc
  | cons f0 t ih =>
    intro m hc
    simp only [unpack_all] at hc
    cases h0 : unpackFileEntry zstd parse jsonR textR dict nm fmt f0 with
    | ok bs =>
      simp only [h0] at hc
      cases h1 : unpack_all zstd parse jsonR textR dict nm fmt t with
      | ok rest => simp only [h1] at hc; cases hc
      | err e => simp only [h1] at hc; cases hc
      | crash m2 => exact ih m2 h1
    | err e => simp only [h0] at hc; cases hc
    | crash m2 =>
      exact unpackFileEntry_no_crash zstd parse jsonR textR dict nm fmt f0 m2 h0

/-! ## Claim theorems -/

/-- Claim C1, counterexample: the claim asserts that every non-override
sibling, including same-named duplicates, survives `apply_overrides` in
its original relative order; but on a `Struct` with two plain children
both named `a` (and no override entry at all), the pass collapses them to
a single child holding the second value — `IndexMap::from_iter` keeps one
slot per name, overwriting the value in place. -/
theorem claim_C1_counterexample :
    dupFixture.applyOverrides
      = .Struct (strB "root") [.Value (strB "a") (.Int 2)] := rfl

/-- Claim C1, amended: `apply_overrides` rewrites every `Struct`,
depth-first, to the declarative pass `specApplyOverridesList`: walk the
distinct non-override names in order of first occurrence; a name targeted
by some `override:`-entry yields the last such override renamed to it,
otherwise the last plain sibling of that name — so same-named plain
duplicates collapse to one entry holding the last value.  The spec's
override fixture `{value: Int 0, override:value: Int 42} →
{value: Int 42}` holds as stated. -/
theorem claim_C1_amended :
    (∀ t : BlkField, t.applyOverrides = specApplyOverrides t) ∧
    ovFixture.applyOverrides
      = .Struct (strB "root") [.Value (strB "value") (.Int 42)] :=
  ⟨applyOverrides_eq_specApplyOverrides, rfl⟩

/-- Claim C2: the sibling pass of `merge_fields` equals the declarative
collapse `specMergePass` (a name occurring at least twice becomes one
`Merged(name, group in original order)` node at the first occurrence's
position; unique names stay in place, so afterwards no two siblings share
a name); on any tree free of pre-existing `Merged` nodes — all parse
results — `merge_fields` leaves every `Struct` with pairwise distinct
sibling names; and the six-`mass` fixture serialises to
`{"mass": [1.0, 2.0, 3.0, 4.0, 5.0, 6.0]}` (at every sufficient fuel of
the fuelled JSON emitter). -/
theorem claim_C2 :
    (∀ fields : List BlkField, mergePass fields = specMergePass fields) ∧
    (∀ t : BlkField, t.noMerged = true →
      (t.mergeFields).structNamesUnique = true) ∧
    (∀ fuel : Nat, 40 ≤ fuel → asSerdeObjF fuel true sixMass = some massJson) :=
  ⟨mergePass_eq_spec, mergeFields_structNamesUnique,
   fun fuel hf => (asSerde_mono 40 fuel hf).1 true sixMass massJson rfl⟩

/-- Claim C2, witness: the six-`mass` fixture has no `Merged` node, its
`merge_fields` result has pairwise distinct sibling names, and fuel 41
renders it to the expected JSON object. -/
theorem claim_C2_witness :
    sixMass.noMerged = true ∧
    (sixMass.mergeFields).structNamesUnique = true ∧
    asSerdeObjF 41 true sixMass = some massJson :=
  ⟨rfl, claim_C2.2.1 sixMass rfl, claim_C2.2.2 41 (by norm_num)⟩

/-- Claim C4: on the five-byte BLK file `00 00 00 00 00` — whose ULEB
header decodes to `names_data_size = 0`, `blocks_count = 0`,
`params_count = 0`, `params_data_size = 0` — the structural parser does
not fail with an `EmptyBlockTable` error: it panics.  The empty block
table reaches `BlkField::from_flat_blocks`, whose `flat_blocks[0].clone()`
indexes an empty vector, a process abort (`ROut.crash`), not an error
return; no `EmptyBlockTable` variant exists in the parser's error
handling. -/
theorem claim_C4 :
    ∀ (fromRaw : Nat → Bytes → Bytes → List Bytes → Option BlkType)
      (nm : NameMap),
      parse_blk fromRaw [0, 0, 0, 0, 0] false nm
        = .crash "index out of bounds" :=
  fun _ _ => rfl

/-- Claim C6: on the name-section bytes `"a\0b\0"` the parse yields
`["a", "\0b"]`, not the NUL-split `["a", "b"]`: `parse_name_section` sets
`start = i` (the NUL's own index) instead of `i + 1` after pushing a
name, so every name after the first keeps the preceding NUL byte.
The second parsed entry `[0, 98]` differs from `"b"` and contains a NUL,
contradicting the claimed split. -/
theorem claim_C6 :
    parseNameSection [97, 0, 98, 0] = [[97], [0, 98]] ∧
    ([0, 98] : Bytes) ≠ strB "b" :=
  ⟨rfl, by decide⟩

/-- Claim C7, counterexample: a `Float12` value holding the twelve floats
0..11 serialises to a 4-element array of 3-element rows — Rust's
`array_chunks::<3>()` over 12 floats yields four chunks — not the
3-element array the claim states. -/
theorem claim_C7_counterexample :
    BlkType.valueAsJson (.Float12 [0, 1, 2, 3, 4, 5, 6, 7, 8, 9, 10, 11])
      = .arr [.arr [stdNum 0, stdNum 1, stdNum 2],
              .arr [stdNum 3, stdNum 4, stdNum 5],
              .arr [stdNum 6, stdNum 7, stdNum 8],
              .arr [stdNum 9, stdNum 10, stdNum 11]] ∧
    jsonArrLen
      (BlkType.valueAsJson (.Float12 [0, 1, 2, 3, 4, 5, 6, 7, 8, 9, 10, 11]))
      ≠ 3 :=
  ⟨rfl, by decide⟩

/-- Claim C7, amended: a `Color {r, g, b, a}` value serialises to the
4-element integer array `[r, g, b, a]`; a `Float12` value holding twelve
floats serialises to a **4**-element array whose elements are 3-element
float arrays chunked row-major; and the emitter's `Value` arm renders
exactly `valueAsJson` of the payload under the field's key. -/
theorem claim_C7_amended :
    (∀ r g b a : Nat,
      BlkType.valueAsJson (.Color r g b a)
        = .arr [.num (r : Rat), .num (g : Rat), .num (b : Rat), .num (a : Rat)]) ∧
    (∀ x0 x1 x2 x3 x4 x5 x6 x7 x8 x9 x10 x11 : Rat,
      BlkType.valueAsJson
          (.Float12 [x0, x1, x2, x3, x4, x5, x6, x7, x8, x9, x10, x11])
        = .arr [.arr [stdNum x0, stdNum x1, stdNum x2],
                .arr [stdNum x3, stdNum x4, stdNum x5],
                .arr [stdNum x6, stdNum x7, stdNum x8],
                .arr [stdNum x9, stdNum x10, stdNum x11]]) ∧
    (∀ (fuel : Nat) (so : Bool) (k : Bytes) (v : BlkType),
      asSerdeJsonF (fuel + 1) so (.Value k v) = some (k, v.valueAsJson)) :=
  ⟨fun _ _ _ _ => rfl,
   fun _ _ _ _ _ _ _ _ _ _ _ _ => rfl,
   fun _ _ _ _ => rfl⟩

/-- Claim C8: `apply_overrides` is idempotent — applying the pass twice
yields the same tree as applying it once, for every BLK tree. -/
theorem claim_C8 :
    ∀ t : BlkField, t.applyOverrides.applyOverrides = t.applyOverrides :=
  applyOverrides_idem_aux

/-- Claim C3: for a payload whose tag byte is fat-zstd (5) the pipeline
hands the structural parser the zstd-decoded buffer minus its first byte,
while for the slim-zstd tags (3, 4) it hands the decoded buffer whole: in
`unpack_blk` the decoded buffer replaces the file and the offset is 1
exactly for `FAT_ZSTD` (0 for the other zstd tags) — when the decoded
buffer is empty the skip cannot happen and `&file[1..]` panics instead,
so the skip conjunct assumes a non-empty decoded buffer and the panic is
stated separately; in the unpacker's per-file BLK branch the offset stays
0 and the one-byte skip happens inside the 2-argument `decode_zstd`
(`decode_zstd_auto`), again exactly for the fat-zstd tag. -/
theorem claim_C3 :
    (∀ (dz : FileType → Bytes → Option Bytes → Except String Bytes)
       (parse : Bytes → Bool → Option NameMap → Except String BlkField)
       (rest : Bytes) (dict : Option Bytes) (nm : Option NameMap) (D : Bytes),
      dz FileType.FAT_ZSTD (5 :: rest) dict = .ok D → D ≠ [] →
      unpack_blk dz parse (5 :: rest) dict nm = liftE (parse (D.drop 1) false nm)) ∧
    (∀ (dz : FileType → Bytes → Option Bytes → Except String Bytes)
       (parse : Bytes → Bool → Option NameMap → Except String BlkField)
       (rest : Bytes) (dict : Option Bytes) (nm : Option NameMap),
      dz FileType.FAT_ZSTD (5 :: rest) dict = .ok [] →
      unpack_blk dz parse (5 :: rest) dict nm = .crash "range start out of bounds") ∧
    (∀ (dz : FileType → Bytes → Option Bytes → Except String Bytes)
       (parse : Bytes → Bool → Option NameMap → Except String BlkField)
       (rest : Bytes) (dict : Option Bytes) (nm : Option NameMap) (D : Bytes),
      dz FileType.SLIM_ZSTD (3 :: rest) dict = .ok D →
      unpack_blk dz parse (3 :: rest) dict nm = liftE (parse D true nm)) ∧
    (∀ (dz : FileType → Bytes → Option Bytes → Except String Bytes)
       (parse : Bytes → Bool → Option NameMap → Except String BlkField)
       (rest : Bytes) (dict : Option Bytes) (nm : Option NameMap) (D : Bytes),
      dz FileType.SLIM_ZSTD_DICT (4 :: rest) dict = .ok D →
      unpack_blk dz parse (4 :: rest) dict nm = liftE (parse D true nm)) ∧
    (∀ (zstd : Bytes → Option Bytes → Except String Bytes)
       (parse : Bytes → Bool → Option NameMap → Except String BlkField)
       (jsonR : FormattingConfiguration → BlkField → Except String Bytes)
       (textR : BlkField → Except String Bytes)
       (dict : Option Bytes) (nm : Option NameMap) (format : BlkOutputFormat)
       (p : String) (rest D : Bytes),
      zstd rest dict = .ok D →
      unpackFileEntry zstd parse jsonR textR dict nm (some format)
          ⟨p, some "blk", 5 :: rest⟩
        = parseThenRender parse jsonR textR format nm false (D.drop 1)) ∧
    (∀ (zstd : Bytes → Option Bytes → Except String Bytes)
       (parse : Bytes → Bool → Option NameMap → Except String BlkField)
       (jsonR : FormattingConfiguration → BlkField → Except String Bytes)
       (textR : BlkField → Except String Bytes)
       (dict : Option Bytes) (nm : Option NameMap) (format : BlkOutputFormat)
       (p : String) (rest D : Bytes),
      zstd rest dict = .ok D →
      unpackFileEntry zstd parse jsonR textR dict nm (some format)
          ⟨p, some "blk", 3 :: rest⟩
        = parseThenRender parse jsonR textR format nm true D) ∧
    (∀ (zstd : Bytes → Option Bytes → Except String Bytes)
       (parse : Bytes → Bool → Option NameMap → Except String BlkField)
       (jsonR : FormattingConfiguration → BlkField → Except String Bytes)
       (textR : BlkField → Except String Bytes)
       (dict : Option Bytes) (nm : Option NameMap) (format : BlkOutputFormat)
       (p : String) (rest D : Bytes),
      zstd rest dict = .ok D →
      unpackFileEntry zstd parse jsonR textR dict nm (some format)
          ⟨p, some "blk", 4 :: rest⟩
        = parseThenRender parse jsonR textR format nm true D) := by
  refine ⟨?_, ?_, ?_, ?_, ?_, ?_, ?_⟩
  · intro dz parse rest dict nm D h hD
    obtain ⟨d0, drest, rfl⟩ : ∃ d0 drest, D = d0 :: drest := by
      cases D with
      | nil => exact absurd rfl hD
      | cons d0 drest => exact ⟨d0, drest, rfl⟩
    cases hp : parse drest false nm <;>
      simp [unpack_blk, FileType.fromByte, FileType.isZstd, FileType.isSlim,
        h, hp, liftE, Except.map, List.drop_one]
  · intro dz parse rest dict nm h
    simp [unpack_blk, FileType.fromByte, FileType.isZstd, FileType.isSlim,
      h, Except.map]
  · intro dz parse rest dict nm D h
    cases hp : parse D true nm <;>
      simp [unpack_blk, FileType.fromByte, FileType.isZstd, FileType.isSlim,
        h, hp, liftE, Except.map]
  · intro dz parse rest dict nm D h
    cases hp : parse D true nm <;>
      simp [unpack_blk, FileType.fromByte, FileType.isZstd, FileType.isSlim,
        h, hp, liftE, Except.map]
  · intro zstd parse jsonR textR dict nm format p rest D h
    simp [unpackFileEntry, maybe_blk, FileType.fromByte, FileType.isZstd,
      FileType.isSlim, Except.isOk, Except.toBool, decode_zstd_auto, h, Except.map,
      List.drop_one]
  · intro zstd parse jsonR textR dict nm format p rest D h
    simp [unpackFileEntry, maybe_blk, FileType.fromByte, FileType.isZstd,
      FileType.isSlim, Except.isOk, Except.toBool, decode_zstd_auto, h, Except.map]
  · intro zstd parse jsonR textR dict nm format p rest D h
    simp [unpackFileEntry, maybe_blk, FileType.fromByte, FileType.isZstd,
      FileType.isSlim, Except.isOk, Except.toBool, decode_zstd_auto, h, Except.map]

/-- Claim C3, witness: with the constant 3-argument decoder `dzW`
(always `[9, 8]`), the empty decoder `dzE`, the identity raw decoder
`zstdW` and the length-recording parser `parseW`, each branch of
`claim_C3` evaluates at a concrete two-byte payload. -/
theorem claim_C3_witness :
    unpack_blk dzW parseW [5, 7] none none
      = liftE (parseW (([9, 8] : Bytes).drop 1) false none) ∧
    unpack_blk dzE parseW [5, 7] none none = .crash "range start out of bounds" ∧
    unpack_blk dzW parseW [3, 7] none none = liftE (parseW [9, 8] true none) ∧
    unpack_blk dzW parseW [4, 7] none none = liftE (parseW [9, 8] true none) ∧
    unpackFileEntry zstdW parseW jsonRW textRW none none (some .BlkText)
        ⟨"f", some "blk", [5, 7]⟩
      = parseThenRender parseW jsonRW textRW .BlkText none false
          (([7] : Bytes).drop 1) ∧
    unpackFileEntry zstdW parseW jsonRW textRW none none (some .BlkText)
        ⟨"f", some "blk", [3, 7]⟩
      = parseThenRender parseW jsonRW textRW .BlkText none true [7] ∧
    unpackFileEntry zstdW parseW jsonRW textRW none none (some .BlkText)
        ⟨"f", some "blk", [4, 7]⟩
      = parseThenRender parseW jsonRW textRW .BlkText none true [7] :=
  ⟨claim_C3.1 dzW parseW [7] none none [9, 8] rfl (by simp),
   claim_C3.2.1 dzE parseW [7] none none rfl,
   claim_C3.2.2.1 dzW parseW [7] none none [9, 8] rfl,
   claim_C3.2.2.2.1 dzW parseW [7] none none [9, 8] rfl,
   claim_C3.2.2.2.2.1 zstdW parseW jsonRW textRW none none .BlkText "f" [7] [7] rfl,
   claim_C3.2.2.2.2.2.1 zstdW parseW jsonRW textRW none none .BlkText "f" [7] [7] rfl,
   claim_C3.2.2.2.2.2.2 zstdW parseW jsonRW textRW none none .BlkText "f" [7] [7] rfl⟩

/-- Claim C5: the `block_id_to_name` lookup of the block-info pass maps
id 0 to the literal name `"root"` and id `n + 1` to entry `n` of the
effective name table (`none` models the Rust index panic); and whenever
the block-info loop succeeds, the head record's name is exactly that
lookup applied to the ULEB-decoded `name_id` of the record. -/
theorem claim_C5 :
    (∀ names : List Bytes, blockIdToName names 0 = some rootName) ∧
    (∀ (names : List Bytes) (id : Nat),
      blockIdToName names (id + 1) = names.get? id) ∧
    (∀ (blockInfo : Bytes) (names : List Bytes) (count ptr : Nat)
       (rb : RawBlock) (rest : List RawBlock),
      parseBlocksLoop blockInfo names (count + 1) ptr = .ok (rb :: rest) →
      ∃ o1 nameId, uleb128 (blockInfo.drop ptr) = .ok (o1, nameId) ∧
        blockIdToName names nameId = some rb.name) := by
  refine ⟨fun names => rfl, fun names id => rfl, ?_⟩
  intro blockInfo names count ptr rb rest h
  simp only [parseBlocksLoop] at h
  cases h1 : uleb128 (blockInfo.drop ptr) with
  | error e => exact absurd h (by simp [h1])
  | ok r1 =>
    obtain ⟨o1, nameId⟩ := r1
    simp only [h1] at h
    refine ⟨o1, nameId, rfl, ?_⟩
    cases h2 : uleb128 (blockInfo.drop (ptr + o1)) with
    | error e => exact absurd h (by simp [h2])
    | ok r2 =>
      obtain ⟨o2, pc⟩ := r2
      simp only [h2] at h
      cases h3 : uleb128 (blockInfo.drop (ptr + o1 + o2)) with
      | error e => exact absurd h (by simp [h3])
      | ok r3 =>
        obtain ⟨o3, cc⟩ := r3
        simp only [h3] at h
        by_cases hcc : 0 < cc
        · rw [if_pos hcc] at h
          cases h4 : uleb128 (blockInfo.drop (ptr + o1 + o2 + o3)) with
          | error e => exact absurd h (by simp [h4])
          | ok r4 =>
            obtain ⟨o4, fid⟩ := r4
            simp only [h4] at h
            cases h5 : blockIdToName names nameId with
            | none => exact absurd h (by simp [h5])
            | some nmv =>
              simp only [h5] at h
              cases h6 : parseBlocksLoop blockInfo names count
                  (ptr + o1 + o2 + o3 + o4) with
              | err e => exact absurd h (by simp [h6])
              | crash m => exact absurd h (by simp [h6])
              | ok rest2 =>
                simp only [h6, ROut.ok.injEq, List.cons.injEq] at h
                rw [← h.1]
        · rw [if_neg hcc] at h
          simp only [Nat.add_zero] at h
          cases h5 : blockIdToName names nameId with
          | none => exact absurd h (by simp [h5])
          | some nmv =>
            simp only [h5] at h
            cases h6 : parseBlocksLoop blockInfo names count
                (ptr + o1 + o2 + o3) with
            | err e => exact absurd h (by simp [h6])
            | crash m => exact absurd h (by simp [h6])
            | ok rest2 =>
              simp only [h6, ROut.ok.injEq, List.cons.injEq] at h
              rw [← h.1]

/-- Claim C5, witness: the three-byte block-info record `00 00 00`
(name id 0, no params, no children) decodes to one block, and the lookup
resolves it. -/
theorem claim_C5_witness :
    ∃ o1 nameId, uleb128 (([0, 0, 0] : Bytes).drop 0) = .ok (o1, nameId) ∧
      blockIdToName [] nameId = some rootName :=
  claim_C5.2.2 [0, 0, 0] [] 0 0 ⟨rootName, 0, 0, none⟩ [] rfl

/-- Claim C9: `decode_bin_vromf` deobfuscates and decompresses only
obfuscated payloads: whenever it succeeds and the reported pack type is
not obfuscated (the plain and the compressed-but-not-obfuscated ZSTD
packings), the result does not depend on the deobfuscator or on
`zstd::decode_all` — swapping both oracles leaves the same output — and
the returned inner payload is byte-for-byte a slice of the input file. -/
theorem claim_C9 :
    ∀ (hdrOf : Nat → Except String HeaderType)
      (platOf : Nat → Except String Nat)
      (packOf : Nat → Except String (PackType × Nat))
      (d1 d2 : Bytes → Bytes) (z1 z2 : Bytes → Except String Bytes)
      (file out : Bytes) (md : Metadata) (pt : PackType),
      decode_bin_vromf hdrOf platOf packOf d1 z1 file = .ok (out, md) →
      md.packing = some pt → pt.isObfuscated = false →
      decode_bin_vromf hdrOf platOf packOf d2 z2 file = .ok (out, md) ∧
        ∃ a b, out = (file.drop a).take b := by
  intro hdrOf platOf packOf d1 d2 z1 z2 file out md pt h hpack hobf
  unfold decode_bin_vromf at h ⊢
  cases hh : decode_bin_vromf_header hdrOf platOf packOf file with
  | error e => rw [hh] at h; cases h
  | ok trip =>
    obtain ⟨pt0, md0, inner0⟩ := trip
    have hspec := decode_header_spec hdrOf platOf packOf file pt0 md0 inner0 hh
    simp only [hh]
    simp only [hh] at h
    cases hob : pt0.isObfuscated with
    | false =>
      simp only [hob, Bool.not_false, if_true, eq_self_iff_true] at h ⊢
      injection h with h
      injection h with h1 h2
      refine ⟨by rw [h1, h2], ?_⟩
      rw [← h1]
      exact hspec.2
    | true =>
      exfalso
      have hmd : md = md0 := by
        simp only [hob, Bool.not_true, Bool.false_eq_true, if_false] at h
        by_cases hcomp : pt0.isCompressed = true
        · rw [if_pos hcomp] at h
          cases hz : z1 (d1 inner0) with
          | error e => rw [hz] at h; cases h
          | ok o2 =>
            simp only [hz] at h
            injection h with h
            injection h with ha hb
            exact hb.symm
        · rw [if_neg hcomp] at h
          injection h with h
          injection h with ha hb
          exact hb.symm
      rw [hmd, hspec.1] at hpack
      injection hpack with hx
      rw [← hx, hob] at hobf
      cases hobf

/-- Claim C9, witness: an 18-byte plain (not obfuscated, not compressed)
VROMF image decodes to its 2-byte payload slice, with the result
unchanged when the deobfuscator and zstd oracles are swapped. -/
theorem claim_C9_witness :
    decode_bin_vromf hdrOfW platOfW packOfW deobW1 zdW1 vromfFileW
      = .ok ([7, 9], mdW) ∧
    mdW.packing = some PackType.Plain ∧
    PackType.isObfuscated .Plain = false ∧
    (decode_bin_vromf hdrOfW platOfW packOfW deobW2 zdW2 vromfFileW
        = .ok ([7, 9], mdW) ∧
      ∃ a b, ([7, 9] : Bytes) = (vromfFileW.drop a).take b) :=
  ⟨rfl, rfl, rfl,
   claim_C9 hdrOfW platOfW packOfW deobW1 deobW2 zdW1 zdW2 vromfFileW
     [7, 9] mdW .Plain rfl rfl rfl⟩

/-- Claim C10: a file whose extension is not `blk`, or whose contents are
empty, or whose first byte is no valid tag, fails `maybe_blk`; every
`maybe_blk`-rejected file passes through `unpackFileEntry`, `unpack_one`
and `unpack_all` byte-for-byte unchanged (position-preserving in
`unpack_all`); and no per-file decode path — nor the whole-archive map —
ever reaches the panicking read of byte 0 of an empty buffer, or any
other panic: neither `unpackFileEntry` nor `unpack_all` can return
`ROut.crash`. -/
theorem claim_C10 :
    (∀ f : VFile,
      (f.ext ≠ some "blk" ∨ f.contents = [] ∨
        ∀ b rest, f.contents = b :: rest → (FileType.fromByte b).isOk = false) →
      maybe_blk f = false) ∧
    (∀ (zstd : Bytes → Option Bytes → Except String Bytes)
       (parse : Bytes → Bool → Option NameMap → Except String BlkField)
       (jsonR : FormattingConfiguration → BlkField → Except String Bytes)
       (textR : BlkField → Except String Bytes)
       (dict : Option Bytes) (nm : Option NameMap) (fmt : Option BlkOutputFormat)
       (f : VFile), maybe_blk f = false →
      unpackFileEntry zstd parse jsonR textR dict nm fmt f = .ok f.contents) ∧
    (∀ (zstd : Bytes → Option Bytes → Except String Bytes)
       (parse : Bytes → Bool → Option NameMap → Except String BlkField)
       (jsonR : FormattingConfiguration → BlkField → Except String Bytes)
       (textR : BlkField → Except String Bytes)
       (dict : Option Bytes) (nm : Option NameMap) (files : List VFile)
       (path : String) (fmt : Option BlkOutputFormat) (f : VFile),
      files.find? (fun e => e.path = path) = some f → maybe_blk f = false →
      unpack_one zstd parse jsonR textR dict nm files path fmt = .ok f.contents) ∧
    (∀ (zstd : Bytes → Option Bytes → Except String Bytes)
       (parse : Bytes → Bool → Option NameMap → Except String BlkField)
       (jsonR : FormattingConfiguration → BlkField → Except String Bytes)
       (textR : BlkField → Except String Bytes)
       (dict : Option Bytes) (nm : Option NameMap) (fmt : Option BlkOutputFormat)
       (files : List VFile) (out : List Bytes),
      unpack_all zstd parse jsonR textR dict nm fmt files = .ok out →
      ∀ (i : Nat) (f : VFile), files.get? i = some f → maybe_blk f = false →
        out.get? i = some f.contents) ∧
    (∀ (zstd : Bytes → Option Bytes → Except String Bytes)
       (parse : Bytes → Bool → Option NameMap → Except String BlkField)
       (jsonR : FormattingConfiguration → BlkField → Except String Bytes)
       (textR : BlkField → Except String Bytes)
       (dict : Option Bytes) (nm : Option NameMap) (fmt : Option BlkOutputFormat)
       (f : VFile) (m : String),
      unpackFileEntry zstd parse jsonR textR dict nm fmt f ≠ .crash m) ∧
    (∀ (zstd : Bytes → Option Bytes → Except String Bytes)
       (parse : Bytes → Bool → Option NameMap → Except String BlkField)
       (jsonR : FormattingConfiguration → BlkField → Except String Bytes)
       (textR : BlkField → Except String Bytes)
       (dict : Option Bytes) (nm : Option NameMap) (fmt : Option BlkOutputFormat)
       (files : List VFile) (m : String),
      unpack_all zstd parse jsonR textR dict nm fmt files ≠ .crash m) := by
  refine ⟨?_, ?_, ?_, ?_, ?_, ?_⟩
  · intro f hf
    unfold maybe_blk
    rcases hf with hf | hf | hf
    · simp [hf]
    · rw [hf]
      simp
    · cases hc : f.contents with
      | nil => simp
      | cons b rest => simp [hf b rest hc]
  · intro zstd parse jsonR textR dict nm fmt f h
    exact unpackFileEntry_pass zstd parse jsonR textR dict nm fmt f h
  · intro zstd parse jsonR textR dict nm files path fmt f hfind hmb
    unfold unpack_one
    simp only [hfind]
    exact unpackFileEntry_pass zstd parse jsonR textR dict nm fmt f hmb
  · intro zstd parse jsonR textR dict nm fmt files out h
    exact (unpack_all_spec zstd parse jsonR textR dict nm fmt files out h).2
  · intro zstd parse jsonR textR dict nm fmt f m
    exact unpackFileEntry_no_crash zstd parse jsonR textR dict nm fmt f m
  · intro zstd parse jsonR textR dict nm fmt files m
    exact unpack_all_no_crash zstd parse jsonR textR dict nm fmt files m

/-- Claim C10, witness: a `.txt` file with three content bytes fails
`maybe_blk` and passes unchanged through every unpacking entry point,
in place, and the per-file body cannot crash on it. -/
theorem claim_C10_witness :
    maybe_blk txtFile = false ∧
    unpackFileEntry zstdW parseW jsonRW textRW none none none txtFile
      = .ok [1, 2, 3] ∧
    unpack_one zstdW parseW jsonRW textRW none none [txtFile] "a.txt" none
      = .ok [1, 2, 3] ∧
    ([[1, 2, 3]] : List Bytes).get? 0 = some txtFile.contents ∧
    unpackFileEntry zstdW parseW jsonRW textRW none none none txtFile
      ≠ .crash "boom" :=
  ⟨claim_C10.1 txtFile (Or.inl (by simp [txtFile])),
   claim_C10.2.1 zstdW parseW jsonRW textRW none none none txtFile rfl,
   claim_C10.2.2.1 zstdW parseW jsonRW textRW none none [txtFile] "a.txt" none
     txtFile rfl rfl,
   claim_C10.2.2.2.1 zstdW parseW jsonRW textRW none none none [txtFile]
     [[1, 2, 3]] rfl 0 txtFile rfl rfl,
   claim_C10.2.2.2.2.1 zstdW parseW jsonRW textRW none none none txtFile "boom"⟩

end WtBlk
